import Mathlib

/-!
Shallow embedding of the go-do pipeline engine (`do/do.go` of paulbes/go-do).

Strings are modelled at the character-list level (`List Char`); Go byte
slices are modelled as strings of their decoded characters.  Go's
`strings.Replace(s, old, new, -1)` is modelled by `replaceAll` below,
written with explicit fuel so that every definition is structurally
recursive and hence computable by the kernel.
-/

namespace GoDo

/-- One step of Go's strings.Replace with n = -1: scan the subject left to
right; whenever the pattern is a prefix of the remaining subject, emit the
replacement and skip the pattern, otherwise emit one character.  The fuel
argument bounds the number of scan steps; `replaceAll` supplies the length
of the subject, which always suffices for a non-empty pattern. -/
def replaceAllAux (pat rep : List Char) : Nat → List Char → List Char
  | _, [] => []
  | 0, s => s
  | fuel + 1, c :: cs =>
    if List.isPrefixOf pat (c :: cs) then
      rep ++ replaceAllAux pat rep fuel (List.drop pat.length (c :: cs))
    else
      c :: replaceAllAux pat rep fuel cs

/-- Go's strings.Replace(s, pat, rep, -1) on character lists. -/
def replaceAll (pat rep s : List Char) : List Char :=
  replaceAllAux pat rep s.length s

/-- Go's strings.Contains on character lists. -/
def listContainsSub (s sub : List Char) : Bool :=
  (List.range (s.length + 1)).any (fun i => List.isPrefixOf sub (List.drop i s))

/-!  The pipeline value model.  Every Go interface value that flows between
stages of do.go is one of these variants: nil, string, byte slice, an
os.File handle (identified by its path, the only attribute the engine
reads), the save marker produced by SaveInVar (do.go lines 78-81), the
SplitResult pair (lines 210-214), the interceptExec envelope the runner
wraps around the input of an Exec stage (lines 241-244), and opaque
structured data such as unmarshalled JSON, modelled by an uninterpreted
tag. -/
inductive Value where
  | empty
  | text (s : String)
  | bytes (s : String)
  | file (path : String)
  | svd (name : String) (val : Value)
  | splitRes (left right : Value)
  | intercept (raw : Value) (vars : List (String × Value))
  | obj (tag : Nat)
deriving Repr

/-- The character list of the placeholder token for a variable name, Go's
fmt.Sprintf("#\x7b%s\x7d", varName) in replaceVar (do.go line 258). -/
def phData (n : List Char) : List Char := '#' :: '\x7b' :: n ++ ['\x7d']

/-- Placeholder token as a string. -/
def phStr (n : String) : String := String.mk (phData n.data)

/-- Go's strings.Replace(s, pat, rep, -1) on strings (do.go uses it at lines
258 and 272-276). -/
def goReplace (s pat rep : String) : String := String.mk (replaceAll pat.data rep.data s.data)

/-- The textual form replaceVar extracts from a variable value (do.go lines
248-257): byte slices and strings decode to their text, a file handle to its
name; every other variant is unsupported. -/
def textOf? : Value → Option String
  | .bytes d => some d
  | .text d => some d
  | .file p => some p
  | _ => none

/-- The error message of replaceVar's default branch (do.go line 256). -/
def unsupportedMsg : String :=
  "don\x27t know how to replace content, required: string, []byte or *os.File"

/-- replaceVar (do.go lines 246-259): substitute every occurrence of the
variable's placeholder by the variable's textual form, or fail on an
unsupported variant. -/
def replaceVar (cmd varName : String) (w : Value) : Except String String :=
  match w with
  | .bytes d => .ok (goReplace cmd (phStr varName) d)
  | .text d => .ok (goReplace cmd (phStr varName) d)
  | .file p => .ok (goReplace cmd (phStr varName) p)
  | _ => .error unsupportedMsg

/-- The ambient replacement step of Exec (do.go lines 270-277): a string or
byte-slice input substitutes the content placeholder, a file input the file
placeholder, anything else leaves the template untouched. -/
def resolveAmbient (cmd : String) (raw : Value) : String :=
  match raw with
  | .bytes d => goReplace cmd (phStr "content") d
  | .text d => goReplace cmd (phStr "content") d
  | .file p => goReplace cmd (phStr "file") p
  | _ => cmd

/-- The variable fold of Exec (do.go lines 278-283).  Go's
`cmd, err = replaceVar(cmd, varName, i)` assigns both results, so on an
error the template variable has just been overwritten with the empty
string; the pair returned here is (template after the loop, error). -/
def resolveVars (cmd : String) : List (String × Value) → String × Option String
  | [] => (cmd, none)
  | (n, v) :: rest =>
    match replaceVar cmd n v with
    | .error e => ("", some e)
    | .ok c => resolveVars c rest

/-- The full substitution performed by an Exec stage on an intercepted
input (do.go lines 268-287), returning the final value of the captured
template variable together with the error of the variable fold. -/
def execResolveT (cmd : String) (raw : Value) (vars : List (String × Value)) :
    String × Option String :=
  resolveVars (resolveAmbient cmd raw) vars

/-!  The process executor. -/

/-- The observable outcome of one operating-system command invocation:
the errors of os.Getwd, the two pipe constructions, cmd.Start and cmd.Wait
(a non-zero exit status surfaces as a Wait error), the final values the two
drain goroutines leave in errOut and errErr, and the bytes accumulated in
the stdout buffer.  doExecute (do.go lines 293-340) is a pure function of
this record. -/
structure ExecOutcome where
  getwdErr : Option String
  stdoutPipeErr : Option String
  stderrPipeErr : Option String
  startErr : Option String
  waitErr : Option String
  drainOutErr : Option String
  drainErrErr : Option String
  stdout : String
deriving Repr

/-- doExecute (do.go lines 293-340).  Each failure check returns (nil, err)
in source order.  Note line 336: after cmd.Wait succeeded, err is nil, and
the drain-failure branch executes `return nil, err`, so a drain failure
yields a nil error. -/
def doExecute (o : ExecOutcome) : Value × Option String :=
  match o.getwdErr with
  | some e => (.empty, some e)
  | none =>
  match o.stdoutPipeErr with
  | some e => (.empty, some e)
  | none =>
  match o.stderrPipeErr with
  | some e => (.empty, some e)
  | none =>
  match o.startErr with
  | some e => (.empty, some e)
  | none =>
  match o.waitErr with
  | some e => (.empty, some e)
  | none =>
    if o.drainOutErr.isSome || o.drainErrErr.isSome then
      (.empty, none)
    else
      (.bytes o.stdout, none)

/-- One invocation of the closure returned by Exec (do.go lines 266-291),
given the outcome the operating system would produce for the resolved
command.  The closure assigns its captured template variable cmd during
substitution, so the invocation returns the new template text alongside
the stage result: on a substitution error the template has been overwritten
with the empty string, on success with the resolved text; a non-intercepted
input returns before touching the template. -/
def execInvoke (cmd : String) (inp : Value) (oracle : String → ExecOutcome) :
    String × Value × Option String :=
  match inp with
  | .intercept raw vars =>
    match execResolveT cmd raw vars with
    | (c, some e) => (c, .empty, some e)
    | (c, none) =>
      let r := doExecute (oracle c)
      (c, r.1, r.2)
  | _ => (cmd, .empty, some "exec command wasn\x27t intercepted")

/-!  Filesystem and cleanup model. -/

/-- Engine-visible effects: temporary-file creation by WriteTempFile, and
the close/remove operations of Run's cleanup passes, each recorded with its
file path and success. -/
inductive Event where
  | createdTemp (path : String)
  | closed (path : String)
  | removed (path : String)
  | closeFailed (path : String)
  | removeFailed (path : String)
deriving Repr, DecidableEq

/-- The ambient state a run interacts with: the set of extant file paths,
a counter feeding fresh temporary-file names, oracles naming the paths
whose Close, Remove or Write calls fail, and the outcome of executing a
shell command. -/
structure World where
  files : List String
  tempCtr : Nat
  closeFails : List String
  removeFails : List String
  writeFails : List String
  exec : String → ExecOutcome

/-- f.Close() for a tracked persistent file (do.go line 64). -/
def goClose (w : World) (p : String) : Option String × World × Event :=
  if p ∈ w.closeFails then (some ("close " ++ p ++ ": failed"), w, .closeFailed p)
  else (none, w, .closed p)

/-- os.Remove(f.Name()) for a tracked temporary file (do.go line 70):
removing a missing file is an error, otherwise the oracle decides. -/
def goRemove (w : World) (p : String) : Option String × World × Event :=
  if p ∈ w.files then
    if p ∈ w.removeFails then (some ("remove " ++ p ++ ": failed"), w, .removeFailed p)
    else (none, { w with files := w.files.erase p }, .removed p)
  else (some ("remove " ++ p ++ ": no such file or directory"), w, .removeFailed p)

/-- The fixed name marker of engine-created temporary files (do.go line 18). -/
def temporaryFilePref : String := "godo-temporary-file"

/-- Split a character list at every occurrence of one separator character. -/
def splitOnChar (sep : Char) : List Char → List (List Char)
  | [] => [[]]
  | c :: cs =>
    if c = sep then [] :: splitOnChar sep cs
    else
      match splitOnChar sep cs with
      | [] => [[c]]
      | h :: t => (c :: h) :: t

/-- Go's path.Base: strip trailing slashes and keep the last component. -/
def goPathBase (p : String) : String :=
  if p = "" then "."
  else
    match ((splitOnChar '/' p.data).filter (· ≠ [])).getLast? with
    | some comp => String.mk comp
    | none => "/"

/-- Whether a file handle is classified as temporary by the runner (do.go
line 50): its base name starts with the temporary-file marker. -/
def isTempName (p : String) : Bool :=
  List.isPrefixOf temporaryFilePref.data (goPathBase p).data

/-- The name ioutil.TempFile produces for the n-th temporary file of a
world: the fixed marker plus a fresh suffix (Go appends a random number;
freshness is all the engine relies on, modelled by a counter-length
suffix). -/
def tempName (n : Nat) : String :=
  temporaryFilePref ++ String.mk (List.replicate n 'x')

/-- The result of one stage invocation as the runner sees it: the returned
value and error, the world afterwards, and the effects performed. -/
structure StageOut where
  out : Value
  err : Option String
  world : World
  events : List Event

/-- The stages of the embedded engine.  insert, saveInVar, exec,
writeTempFile and excludeLines mirror the library stages of the same names;
fn is an arbitrary caller-supplied StageFn (the stage contract of do.go
line 22), as a pure function of the input value and the world.  Split is
defined below as a derived fn stage, just as Go's Split returns an ordinary
StageFn closure. -/
inductive Stage where
  | insert (v : Value)
  | saveInVar (name : String)
  | exec (cmd : String)
  | writeTempFile
  | excludeLines (separator : String) (exclusions : List String)
  | fn (f : Value → World → StageOut)

/-- Go's strings.Split for a non-empty separator, with fuel for structural
recursion (the subject length always suffices). -/
def goSplitAux (sep : List Char) : Nat → List Char → List (List Char)
  | _, [] => [[]]
  | 0, s => [s]
  | fuel + 1, c :: cs =>
    if List.isPrefixOf sep (c :: cs) then
      [] :: goSplitAux sep fuel (List.drop sep.length (c :: cs))
    else
      match goSplitAux sep fuel cs with
      | [] => [[c]]
      | h :: t => (c :: h) :: t

/-- Go's strings.Split: an empty separator explodes the string into
characters, otherwise split at every occurrence of the separator. -/
def goSplit (s sep : String) : List String :=
  if sep = "" then s.data.map (fun c => String.mk [c])
  else (goSplitAux sep.data s.data.length s.data).map String.mk

/-- Go's strings.Join. -/
def goJoin (xs : List String) (sep : String) : String :=
  match xs with
  | [] => ""
  | h :: t => t.foldl (fun acc x => acc ++ sep ++ x) h

/-- Go's strings.Contains. -/
def strContains (s sub : String) : Bool := listContainsSub s.data sub.data

/-- The body of an ExcludeLines stage (do.go lines 344-365): split string
or byte input on the separator (any other input leaves the line list
empty), drop every line containing one of the exclusions, and join the
remainder; the stage never fails. -/
def excludeLinesFn (separator : String) (exclusions : List String) (input : Value) : String :=
  let content : List String :=
    match input with
    | .bytes d => goSplit d separator
    | .text d => goSplit d separator
    | _ => []
  let out := content.filter (fun line => !(exclusions.any (fun ex => strContains line ex)))
  goJoin out separator

/-- SaveInVar's name validation (do.go lines 91-97): the regular expression
match of caret [a-zA-Z] plus dollar. -/
def validVarName (n : String) : Bool :=
  !n.data.isEmpty && n.data.all Char.isAlpha

/-- Whether the runner wraps the stage input in an interception envelope
(do.go lines 38-44): in Go this is detected by the runtime function name of
the stage containing the name of Exec's closure, which holds exactly for
the closures Exec returns. -/
def isExec : Stage → Bool
  | .exec _ => true
  | _ => false

/-- Invoke one stage on an input value in a world.  Each arm mirrors the
body of the corresponding library stage.  In the WriteTempFile arm
(do.go lines 181-208), ioutil.TempFile first creates the file (a creation
failure, which leaves no file behind, is not modelled); the subsequent
f.Write (line 198) and f.Close (line 203) may fail, in which case the
stage returns a nil value and an error while the created file stays on
disk. -/
def applyStage : Stage → Value → World → StageOut
  | .insert v, _, w => ⟨v, none, w, []⟩
  | .saveInVar n, inp, w =>
    if n == "content" || n == "file" || !validVarName n then
      ⟨.empty, some "not a valid variable name, must match: [a-zA-Z] (excluding: content, file)",
       w, []⟩
    else ⟨.svd n inp, none, w, []⟩
  | .exec cmd, inp, w =>
    let r := execInvoke cmd inp w.exec
    ⟨r.2.1, r.2.2, w, []⟩
  | .writeTempFile, inp, w =>
    match inp with
    | .text _ =>
      let name := tempName w.tempCtr
      let w2 : World := { w with files := w.files ++ [name], tempCtr := w.tempCtr + 1 }
      if name ∈ w.writeFails then
        ⟨.empty, some ("write " ++ name ++ ": failed"), w2, [.createdTemp name]⟩
      else if name ∈ w.closeFails then
        ⟨.empty, some ("close " ++ name ++ ": failed"), w2, [.createdTemp name]⟩
      else
        ⟨.file name, none, w2, [.createdTemp name]⟩
    | .bytes _ =>
      let name := tempName w.tempCtr
      let w2 : World := { w with files := w.files ++ [name], tempCtr := w.tempCtr + 1 }
      if name ∈ w.writeFails then
        ⟨.empty, some ("write " ++ name ++ ": failed"), w2, [.createdTemp name]⟩
      else if name ∈ w.closeFails then
        ⟨.empty, some ("close " ++ name ++ ": failed"), w2, [.createdTemp name]⟩
      else
        ⟨.file name, none, w2, [.createdTemp name]⟩
    | _ => ⟨.empty, some "provided input must be string or []byte", w, []⟩
  | .excludeLines sep excl, inp, w => ⟨.text (excludeLinesFn sep excl inp), none, w, []⟩
  | .fn f, inp, w => f inp w

/-- The state Run's stage loop (do.go lines 36-62) carries when it stops:
the current input value (Go's named return), the error that broke the loop
if any, the variable store and the two resource-tracking lists, the world,
and the effects so far. -/
structure LoopOut where
  val : Value
  err : Option String
  vars : List (String × Value)
  cfs : List String
  rfs : List String
  w : World
  tr : List Event

/-- Run's stage loop (do.go lines 36-62).  Before invoking the stage, an
Exec stage's input is wrapped into the interception envelope carrying the
live variable store; after a successful stage, a returned file handle is
registered as temporary or persistent by its base name, and a save marker
binds its variable, breaking the loop with an error on a duplicate name. -/
def runLoop : List Stage → Value → List (String × Value) → List String → List String →
    World → List Event → LoopOut
  | [], input, vars, cfs, rfs, w, tr => ⟨input, none, vars, cfs, rfs, w, tr⟩
  | s :: rest, input, vars, cfs, rfs, w, tr =>
    let inp := if isExec s then Value.intercept input vars else input
    let so := applyStage s inp w
    match so.err with
    | some e => ⟨so.out, some e, vars, cfs, rfs, so.world, tr ++ so.events⟩
    | none =>
      match so.out with
      | .file p =>
        if isTempName p then
          runLoop rest so.out vars cfs (rfs ++ [p]) so.world (tr ++ so.events)
        else
          runLoop rest so.out vars (cfs ++ [p]) rfs so.world (tr ++ so.events)
      | .svd n x =>
        if (vars.find? (fun nv => nv.1 == n)).isSome then
          ⟨so.out, some ("variable: " ++ n ++ " already exists"), vars, cfs, rfs, so.world,
           tr ++ so.events⟩
        else
          runLoop rest so.out (vars ++ [(n, x)]) cfs rfs so.world (tr ++ so.events)
      | _ => runLoop rest so.out vars cfs rfs so.world (tr ++ so.events)

/-- The temporary-file pass of Run's cleanup (do.go lines 69-74): each
os.Remove result is assigned to the named return err, and a failure
returns at once; a success overwrites err with nil. -/
def removeLoop (err : Option String) (rfs : List String) (w : World) (tr : List Event) :
    Option String × World × List Event :=
  match rfs with
  | [] => (err, w, tr)
  | p :: rest =>
    match goRemove w p with
    | (some e, w2, ev) => (some e, w2, tr ++ [ev])
    | (none, w2, ev) => removeLoop none rest w2 (tr ++ [ev])

/-- Both cleanup passes of Run (do.go lines 63-75): close every persistent
file in registration order, then remove every temporary file in
registration order, with the same err-overwriting assignment in each
loop. -/
def closeLoop (err : Option String) (cfs rfs : List String) (w : World) (tr : List Event) :
    Option String × World × List Event :=
  match cfs with
  | [] => removeLoop err rfs w tr
  | p :: rest =>
    match goClose w p with
    | (some e, w2, ev) => (some e, w2, tr ++ [ev])
    | (none, w2, ev) => closeLoop none rest rfs w2 (tr ++ [ev])

/-- What Run returns together with the internal state it finished with,
exposed so that theorems can observe the variable store, the tracked
resource lists, the world and the effects. -/
structure RunResult where
  val : Value
  err : Option String
  world : World
  trace : List Event
  vars : List (String × Value)
  cfs : List String
  rfs : List String

/-- Run (do.go lines 28-76): execute the stage loop starting from a nil
input with a fresh variable store and fresh resource lists, then run the
cleanup passes; the returned error is the named return err as the cleanup
loops left it. -/
def runGo (stages : List Stage) (w : World) : RunResult :=
  let L := runLoop stages .empty [] [] [] w []
  let C := closeLoop L.err L.cfs L.rfs L.w L.tr
  ⟨L.val, C.1, C.2.1, C.2.2, L.vars, L.cfs, L.rfs⟩

/-- Split (do.go lines 219-231): an ordinary stage closure that runs the
left branch as a nested Run on Insert(input) followed by the left stages,
then, only if the left run succeeded, the right branch likewise; a branch
failure is returned with the original input, success pairs both values.
Each nested runGo starts, by definition, from a fresh empty variable store
and fresh resource lists, sharing only the input value and the world. -/
def Split (left right : List Stage) : Stage :=
  .fn (fun input w =>
    let L := runGo (Stage.insert input :: left) w
    match L.err with
    | some e => ⟨input, some e, L.world, L.trace⟩
    | none =>
      let R := runGo (Stage.insert input :: right) L.world
      match R.err with
      | some e => ⟨input, some e, R.world, L.trace ++ R.trace⟩
      | none => ⟨.splitRes L.val R.val, none, R.world, L.trace ++ R.trace⟩)

/-!  Command templates as token sequences.

A command template in the sense of the specification is an interleaving of
literal segments and placeholder tokens.  The substitution theorems below
relate the character-level replacement loop of Exec to a single
simultaneous resolution of such a token sequence. -/

/-- One template token: a literal segment or a placeholder. -/
inductive Tok where
  | lit (cs : List Char)
  | ph (name : List Char)
deriving DecidableEq, Repr

/-- The character content of a token. -/
def renderTok : Tok → List Char
  | .lit cs => cs
  | .ph n => phData n

/-- The character content of a token sequence. -/
def render : List Tok → List Char
  | [] => []
  | t :: ts => renderTok t ++ render ts

/-- Well-formedness of a token: literal segments contain no hash character
and placeholder names are alphabetic. -/
def wfTok : Tok → Bool
  | .lit cs => cs.all (fun c => c != '#')
  | .ph n => n.all Char.isAlpha

/-- Replace one placeholder by a literal. -/
def substTok (n rep : List Char) : Tok → Tok
  | .ph m => if m = n then .lit rep else .ph m
  | t => t

/-- The textual form of a variable value, defaulting to the empty string. -/
def textD (v : Value) : String := (textOf? v).getD ""

/-- One variable-fold pass over a token, in store order. -/
def applyVarsTok (vars : List (String × Value)) (t : Tok) : Tok :=
  vars.foldl (fun acc nv => substTok nv.1.data (textD nv.2).data acc) t

/-- One variable-fold pass over a token sequence, in store order. -/
def applyVarsT (vars : List (String × Value)) (ts : List Tok) : List Tok :=
  vars.foldl (fun acc nv => acc.map (substTok nv.1.data (textD nv.2).data)) ts

/-- Concatenation of character segments. -/
def catLists : List (List Char) → List Char
  | [] => []
  | l :: ls => l ++ catLists ls

/-- The simultaneous resolution of one token that the specification
describes: ambient content and file placeholders resolve to the ambient
value, bound names to their variable's textual form, everything else is
left as the unchanged placeholder text. -/
def resolveTokC (raw : Value) (vars : List (String × Value)) : Tok → List Char
  | .lit cs => cs
  | .ph n =>
    let deflt : List Char :=
      match vars.find? (fun nv => nv.1 == String.mk n) with
      | some nv => (textD nv.2).data
      | none => phData n
    match raw with
    | .text d => if n = "content".data then d.data else deflt
    | .bytes d => if n = "content".data then d.data else deflt
    | .file p => if n = "file".data then p.data else deflt
    | _ => deflt

/-- Well-formedness of a variable store for the substitution theorem: every
name is alphabetic and every value has a hash-free textual form. -/
def varsWFb (vars : List (String × Value)) : Bool :=
  vars.all (fun nv =>
    nv.1.data.all Char.isAlpha &&
    (match textOf? nv.2 with
     | some t => t.data.all (fun c => c != '#')
     | none => false))

/-- Well-formedness of the ambient value: its textual form, when it has
one, is hash-free. -/
def ambWFb : Value → Bool
  | .text d => d.data.all (fun c => c != '#')
  | .bytes d => d.data.all (fun c => c != '#')
  | .file p => p.data.all (fun c => c != '#')
  | _ => true

/-- A stage is resource-tame when it does not fabricate engine-named
temporary files and, if it is a caller-supplied function, leaves the world
unchanged and performs no effects.  The library stages are tame by
construction except for an Insert of a foreign file handle carrying the
temporary-name marker; the resource-lifecycle theorem quantifies over tame
pipelines. -/
def TameStage : Stage → Prop
  | .insert v => ∀ p, v = .file p → isTempName p = false
  | .fn f => ∀ v w, (f v w).world = w ∧ (f v w).events = [] ∧
      (∀ p, (f v w).out = .file p → isTempName p = false)
  | _ => True

/-- Recognizer for successful-removal events. -/
def isRemovedEv : Event → Bool
  | .removed _ => true
  | _ => false

/-- Recognizer for temporary-file-creation events. -/
def isCreatedEv : Event → Bool
  | .createdTemp _ => true
  | _ => false

/-- An execution oracle for worlds in which commands succeed silently. -/
def quietOutcome : ExecOutcome := ⟨none, none, none, none, none, none, none, ""⟩

/-- A world with no files, no failing cleanup operations and quiet
commands, used to instantiate theorems at concrete runs. -/
def w0x : World := ⟨[], 0, [], [], [], fun _ => quietOutcome⟩

/-- A stage that ignores its input and fails with a fixed error, used to
instantiate theorems at concrete runs. -/
def failStage (msg : String) : Stage := .fn (fun _ w => ⟨.empty, some msg, w, []⟩)

/-- The template of the specification's substitution example, as tokens. -/
def tsEx : List Tok :=
  [.ph "a".data, .lit "-".data, .ph "content".data, .lit "-".data, .ph "b".data]

/-- The variable store of the specification's substitution example. -/
def varsEx : List (String × Value) := [("a", .text "X"), ("b", .file "/tmp/y")]

/-- The template of the specification's unbound-placeholder example. -/
def tsEx2 : List Tok := [.lit "echo ".data, .ph "nope".data]

/-- A pipeline creating two temporary files, with every stage succeeding,
used to instantiate the resource-lifecycle theorem. -/
def stagesC2ok : List Stage :=
  [.insert (.text "hi"), .writeTempFile, .insert (.text "bye"), .writeTempFile]

/-- A world with one persistent pre-existing file, no failing file
operations and quiet commands. -/
def w0keep : World := ⟨["keep.txt"], 0, [], [], [], fun _ => quietOutcome⟩

/-- A world in which writing to the first engine-created temporary file
fails, exhibiting WriteTempFile's post-creation failure path. -/
def wLeak : World := ⟨[], 0, [], [], [tempName 0], fun _ => quietOutcome⟩

/-!  Properties. -/

theorem replaceAllAux_nil (pat rep : List Char) (fuel : Nat) :
    replaceAllAux pat rep fuel [] = [] := by
  cases fuel <;> rfl

theorem replaceAll_nil (pat rep : List Char) : replaceAll pat rep [] = [] := rfl

/-- With a non-empty pattern the result does not depend on the fuel, as long
as the fuel covers the length of the subject. -/
theorem replaceAllAux_fuel (pat rep : List Char) (hpat : pat ≠ []) :
    ∀ fuel fuel' s, s.length ≤ fuel → s.length ≤ fuel' →
      replaceAllAux pat rep fuel s = replaceAllAux pat rep fuel' s := by
  intro fuel
  induction fuel with
  | zero =>
    intro fuel' s hs _
    have : s = [] := List.eq_nil_of_length_eq_zero (Nat.le_zero.mp hs)
    subst this
    simp [replaceAllAux_nil]
  | succ f ih =>
    intro fuel' s hs hs'
    cases s with
    | nil => simp [replaceAllAux_nil]
    | cons c cs =>
      cases fuel' with
      | zero => simp at hs'
      | succ f' =>
        simp only [replaceAllAux]
        by_cases hpre : List.isPrefixOf pat (c :: cs)
        · rw [if_pos hpre, if_pos hpre]
          have hlen : pat.length ≥ 1 := by
            cases pat with
            | nil => exact absurd rfl hpat
            | cons p pt => simp
          have hdrop : (List.drop pat.length (c :: cs)).length ≤ cs.length := by
            simp only [List.length_drop, List.length_cons]
            omega
          have h1 : (List.drop pat.length (c :: cs)).length ≤ f := by
            simp only [List.length_cons] at hs; omega
          have h2 : (List.drop pat.length (c :: cs)).length ≤ f' := by
            simp only [List.length_cons] at hs'; omega
          rw [ih f' _ h1 h2]
        · rw [if_neg hpre, if_neg hpre]
          have h1 : cs.length ≤ f := by simp only [List.length_cons] at hs; omega
          have h2 : cs.length ≤ f' := by simp only [List.length_cons] at hs'; omega
          rw [ih f' _ h1 h2]

/-- Scanning step when the pattern does not match at the head. -/
theorem replaceAll_cons_neg (pat rep : List Char) (c : Char) (cs : List Char)
    (h : ¬ List.isPrefixOf pat (c :: cs)) :
    replaceAll pat rep (c :: cs) = c :: replaceAll pat rep cs := by
  simp only [replaceAll, List.length_cons, replaceAllAux]
  rw [if_neg h]

/-- Scanning step when the pattern matches at the head. -/
theorem replaceAll_prefix (pat rep s : List Char) (hpat : pat ≠ []) :
    replaceAll pat rep (pat ++ s) = rep ++ replaceAll pat rep s := by
  cases pat with
  | nil => exact absurd rfl hpat
  | cons p pt =>
    have hpre : List.isPrefixOf (p :: pt) (p :: (pt ++ s)) := by
      rw [List.isPrefixOf_iff_prefix]
      exact List.prefix_append _ _
    simp only [replaceAll, List.cons_append, List.length_cons, List.append_eq, replaceAllAux]
    rw [if_pos hpre]
    have hdrop : List.drop (pt.length + 1) (p :: (pt ++ s)) = s := by
      rw [List.drop_succ_cons, List.drop_left]
    rw [hdrop]
    congr 1
    exact replaceAllAux_fuel _ _ hpat _ _ s (by simp) (Nat.le_refl _)

/-- A pattern starting with a character absent from l cannot match inside l:
the scan copies l unchanged. -/
theorem replaceAll_skip (pt rep : List Char) (h0 : Char) :
    ∀ l s, (∀ c ∈ l, c ≠ h0) →
      replaceAll (h0 :: pt) rep (l ++ s) = l ++ replaceAll (h0 :: pt) rep s := by
  intro l
  induction l with
  | nil => intro s _; simp
  | cons c l ih =>
    intro s hc
    have hne : ¬ List.isPrefixOf (h0 :: pt) (c :: (l ++ s)) := by
      simp only [List.isPrefixOf, Bool.and_eq_true, beq_iff_eq]
      intro hand
      exact (hc c (by simp)) hand.1.symm
    rw [List.cons_append, replaceAll_cons_neg _ _ _ _ hne, ih s (fun x hx => hc x (by simp [hx]))]
    simp

/-- A pattern whose head is absent from the whole subject leaves the subject
unchanged. -/
theorem replaceAll_no_head (pt rep : List Char) (h0 : Char) (l : List Char)
    (h : ∀ c ∈ l, c ≠ h0) : replaceAll (h0 :: pt) rep l = l := by
  have := replaceAll_skip pt rep h0 l [] h
  simpa [replaceAll_nil] using this

/-- Alphabetic characters are none of the placeholder-syntax characters. -/
theorem alpha_ne_special (c : Char) (h : c.isAlpha = true) :
    c ≠ '\x7d' ∧ c ≠ '#' ∧ c ≠ '\x7b' ∧ c ≠ '/' := by
  refine ⟨?_, ?_, ?_, ?_⟩ <;> · intro hEq; subst hEq; exact absurd h (by decide)

/-- Two distinct alphabetic names close-braced cannot be prefixes of one
another inside a subject: the first difference, or the closing brace
against an alphabetic character, breaks the match. -/
theorem namesNe : ∀ n m : List Char, (∀ c ∈ n, c.isAlpha = true) →
    (∀ c ∈ m, c.isAlpha = true) → n ≠ m → ∀ s,
    ¬ List.isPrefixOf (n ++ ['\x7d']) (m ++ '\x7d' :: s) = true := by
  intro n
  induction n with
  | nil =>
    intro m _ hm hne s
    cases m with
    | nil => exact absurd rfl hne
    | cons c m2 =>
      simp only [List.nil_append, List.cons_append, List.isPrefixOf, Bool.and_eq_true, beq_iff_eq]
      intro hand
      exact (alpha_ne_special c (hm c (by simp))).1 hand.1.symm
  | cons a n2 ih =>
    intro m hn hm hne s
    cases m with
    | nil =>
      simp only [List.cons_append, List.nil_append, List.isPrefixOf, Bool.and_eq_true, beq_iff_eq]
      intro hand
      exact (alpha_ne_special a (hn a (by simp))).1 hand.1
    | cons b m2 =>
      simp only [List.cons_append, List.isPrefixOf, Bool.and_eq_true, beq_iff_eq]
      intro hand
      have hab : a = b := hand.1
      subst hab
      have hne2 : n2 ≠ m2 := fun hEq => hne (by rw [hEq])
      exact ih m2 (fun c hc => hn c (by simp [hc])) (fun c hc => hm c (by simp [hc])) hne2 s
        hand.2

/-- A placeholder pattern passes unchanged over a placeholder of a
different alphabetic name. -/
theorem replaceAll_skip_ph (n m rep : List Char) (hn : ∀ c ∈ n, c.isAlpha = true)
    (hm : ∀ c ∈ m, c.isAlpha = true) (hne : n ≠ m) (s : List Char) :
    replaceAll (phData n) rep (phData m ++ s) = phData m ++ replaceAll (phData n) rep s := by
  have hshape : phData m ++ s = '#' :: '\x7b' :: ((m ++ ['\x7d']) ++ s) := by
    simp [phData]
  have h1 : ¬ List.isPrefixOf (phData n) ('#' :: '\x7b' :: ((m ++ ['\x7d']) ++ s)) = true := by
    simp only [phData, List.isPrefixOf, Bool.and_eq_true, beq_iff_eq]
    intro hand
    have := hand.2.2
    rw [List.append_assoc] at this
    exact namesNe n m hn hm hne s (by simpa using this)
  have h2 : ¬ List.isPrefixOf (phData n) ('\x7b' :: ((m ++ ['\x7d']) ++ s)) = true := by
    simp only [phData, List.isPrefixOf, Bool.and_eq_true, beq_iff_eq]
    intro hand
    exact (by decide : ('#' : Char) ≠ '\x7b') hand.1
  have h3 : ∀ c ∈ m ++ ['\x7d'], c ≠ '#' := by
    intro c hc
    rcases List.mem_append.mp hc with h | h
    · exact (alpha_ne_special c (hm c h)).2.1
    · simp at h; subst h; decide
  calc replaceAll (phData n) rep (phData m ++ s)
      = replaceAll (phData n) rep ('#' :: '\x7b' :: ((m ++ ['\x7d']) ++ s)) := by rw [hshape]
    _ = '#' :: replaceAll (phData n) rep ('\x7b' :: ((m ++ ['\x7d']) ++ s)) :=
        replaceAll_cons_neg _ _ _ _ h1
    _ = '#' :: '\x7b' :: replaceAll (phData n) rep ((m ++ ['\x7d']) ++ s) := by
        rw [replaceAll_cons_neg _ _ _ _ h2]
    _ = '#' :: '\x7b' :: ((m ++ ['\x7d']) ++ replaceAll (phData n) rep s) := by
        have : phData n = '#' :: ('\x7b' :: n ++ ['\x7d']) := by simp [phData]
        rw [this, replaceAll_skip _ _ _ _ _ h3]
    _ = phData m ++ replaceAll (phData n) rep s := by simp [phData]

/-- A placeholder pattern fires on its own placeholder text. -/
theorem replaceAll_hit_ph (n rep s : List Char) :
    replaceAll (phData n) rep (phData n ++ s) = rep ++ replaceAll (phData n) rep s :=
  replaceAll_prefix _ _ _ (by simp [phData])

/-- Replacing one alphabetic placeholder in a rendered well-formed template
substitutes exactly the matching placeholder tokens. -/
theorem replaceAll_render (n rep : List Char) (hn : ∀ c ∈ n, c.isAlpha = true) :
    ∀ ts : List Tok, (∀ t ∈ ts, wfTok t = true) →
      replaceAll (phData n) rep (render ts) = render (ts.map (substTok n rep)) := by
  intro ts
  induction ts with
  | nil => intro _; simp [render, replaceAll_nil]
  | cons t ts ih =>
    intro hwf
    have hwt : wfTok t = true := hwf t (by simp)
    have hwts : ∀ u ∈ ts, wfTok u = true := fun u hu => hwf u (by simp [hu])
    cases t with
    | lit cs =>
      have hcs : ∀ c ∈ cs, c ≠ '#' := by
        intro c hc
        have := (List.all_eq_true.mp hwt) c hc
        simpa using this
      have hph : phData n = '#' :: ('\x7b' :: n ++ ['\x7d']) := by simp [phData]
      simp only [render, renderTok, List.map_cons, substTok]
      rw [hph, replaceAll_skip _ _ _ _ _ hcs, ← hph, ih hwts]
    | ph m =>
      have hma : ∀ c ∈ m, c.isAlpha = true := fun c hc => (List.all_eq_true.mp hwt) c hc
      by_cases hEq : m = n
      · subst hEq
        simp only [render, renderTok, List.map_cons]
        rw [replaceAll_hit_ph, ih hwts]
        simp [substTok, renderTok]
      · simp only [render, renderTok, List.map_cons]
        rw [replaceAll_skip_ph n m rep hn hma (fun h => hEq h.symm), ih hwts]
        simp [substTok, renderTok, hEq]

/-- Substituting a hash-free literal preserves token well-formedness. -/
theorem wfTok_substTok (n rep : List Char) (hrep : ∀ c ∈ rep, c ≠ '#') (t : Tok)
    (h : wfTok t = true) : wfTok (substTok n rep t) = true := by
  cases t with
  | lit cs => simpa [substTok] using h
  | ph m =>
    by_cases hEq : m = n
    · simp only [substTok, if_pos hEq, wfTok]
      exact List.all_eq_true.mpr (fun c hc => by simpa using hrep c hc)
    · simpa [substTok, hEq] using h

/-- The variable fold of Exec on a rendered well-formed template performs,
token-wise, the sequential substitution applyVarsT, and never fails. -/
theorem resolveVars_render :
    ∀ (vars : List (String × Value)), varsWFb vars = true →
    ∀ ts : List Tok, (∀ t ∈ ts, wfTok t = true) →
      resolveVars (String.mk (render ts)) vars =
        (String.mk (render (applyVarsT vars ts)), none) := by
  intro vars
  induction vars with
  | nil => intro _ ts _; simp [resolveVars, applyVarsT]
  | cons nv rest ih =>
    intro hwf ts hts
    have hhead := (List.all_eq_true.mp hwf) nv (by simp)
    have hrest : varsWFb rest = true :=
      List.all_eq_true.mpr (fun u hu => (List.all_eq_true.mp hwf) u (by simp [hu]))
    obtain ⟨n, v⟩ := nv
    simp only [Bool.and_eq_true] at hhead
    obtain ⟨hna, hvt⟩ := hhead
    have hnalpha : ∀ c ∈ n.data, c.isAlpha = true := List.all_eq_true.mp hna
    obtain ⟨d, hd, hdfree⟩ : ∃ d, textOf? v = some d ∧ ∀ c ∈ d.data, c ≠ '#' := by
      cases hvd : textOf? v with
      | none => rw [hvd] at hvt; exact absurd hvt (by simp)
      | some d =>
        rw [hvd] at hvt
        exact ⟨d, rfl, fun c hc => by simpa using (List.all_eq_true.mp hvt) c hc⟩
    have hrepl : replaceVar (String.mk (render ts)) n v =
        .ok (goReplace (String.mk (render ts)) (phStr n) d) := by
      cases v <;> simp_all [textOf?, replaceVar]
    have hgo : goReplace (String.mk (render ts)) (phStr n) d =
        String.mk (render (ts.map (substTok n.data d.data))) := by
      simp only [goReplace, phStr]
      congr 1
      exact replaceAll_render n.data d.data hnalpha ts hts
    simp only [resolveVars, hrepl, hgo]
    rw [ih hrest _ (fun t ht => by
      rcases List.mem_map.mp ht with ⟨u, hu, rfl⟩
      exact wfTok_substTok n.data d.data hdfree u (hts u hu))]
    simp only [applyVarsT, List.foldl_cons, textD, hd, Option.getD_some]

/-- The sequential token substitution factors through each token. -/
theorem applyVarsT_map (vars : List (String × Value)) :
    ∀ ts : List Tok, applyVarsT vars ts = ts.map (applyVarsTok vars) := by
  induction vars with
  | nil =>
    intro ts
    simp only [applyVarsT, List.foldl_nil]
    exact (List.map_id ts).symm
  | cons nv rest ih =>
    intro ts
    simp only [applyVarsT, List.foldl_cons] at ih ⊢
    rw [ih (ts.map (substTok nv.1.data (textD nv.2).data)), List.map_map]
    rfl

/-- Literal tokens are fixed by the variable fold. -/
theorem applyVarsTok_lit (vars : List (String × Value)) (cs : List Char) :
    applyVarsTok vars (.lit cs) = .lit cs := by
  induction vars with
  | nil => rfl
  | cons nv rest ih => simpa [applyVarsTok, substTok] using ih

/-- A placeholder token resolves through the variable fold to the first
matching binding, or stays itself. -/
theorem applyVarsTok_ph (vars : List (String × Value)) (n : List Char) :
    applyVarsTok vars (.ph n) =
      match vars.find? (fun nv => nv.1 == String.mk n) with
      | some nv => .lit (textD nv.2).data
      | none => .ph n := by
  induction vars with
  | nil => rfl
  | cons nv rest ih =>
    obtain ⟨m, v⟩ := nv
    by_cases hEq : n = m.data
    · have hms : m = String.mk n := congrArg String.mk hEq.symm
      have hfind : List.find? (fun nv => nv.1 == String.mk n) ((m, v) :: rest) = some (m, v) :=
        List.find?_cons_of_pos _ (by simpa using hms)
      rw [hfind]
      simp only [applyVarsTok, List.foldl_cons, substTok, if_pos hEq]
      exact applyVarsTok_lit rest _
    · have hms : ¬ (m == String.mk n) = true := by
        simp only [beq_iff_eq]
        intro hcontra
        exact hEq (by rw [hcontra])
      have hfind : List.find? (fun nv => nv.1 == String.mk n) ((m, v) :: rest) =
          List.find? (fun nv => nv.1 == String.mk n) rest :=
        List.find?_cons_of_neg _ (by simpa using hms)
      rw [hfind]
      simp only [applyVarsTok, List.foldl_cons, substTok, if_neg hEq]
      exact ih

/-- Rendering is segment concatenation. -/
theorem render_eq_cat (ts : List Tok) : render ts = catLists (ts.map renderTok) := by
  induction ts with
  | nil => rfl
  | cons t ts ih => simp [render, catLists, ih]

/-- What the variable fold makes of a single token. -/
theorem renderTok_avt (vars : List (String × Value)) (t : Tok) :
    renderTok (applyVarsTok vars t) =
      (match t with
       | .lit cs => cs
       | .ph m =>
         match vars.find? (fun nv => nv.1 == String.mk m) with
         | some nv => (textD nv.2).data
         | none => phData m) := by
  cases t with
  | lit cs => rw [applyVarsTok_lit]; rfl
  | ph m =>
    rw [applyVarsTok_ph]
    cases hf : vars.find? (fun nv => nv.1 == String.mk m) <;> simp [hf, renderTok]

/-- What one ambient substitution followed by the variable fold makes of a
single token. -/
theorem renderTok_avt_subst (vars : List (String × Value)) (n0 d : List Char) (t : Tok) :
    renderTok (applyVarsTok vars (substTok n0 d t)) =
      (match t with
       | .lit cs => cs
       | .ph m =>
         if m = n0 then d
         else
           match vars.find? (fun nv => nv.1 == String.mk m) with
           | some nv => (textD nv.2).data
           | none => phData m) := by
  cases t with
  | lit cs => rw [show substTok n0 d (Tok.lit cs) = Tok.lit cs from rfl, applyVarsTok_lit]; rfl
  | ph m =>
    by_cases hEq : m = n0
    · simp only [substTok, if_pos hEq]
      rw [applyVarsTok_lit]
      simp [renderTok, hEq]
    · simp only [substTok, if_neg hEq]
      rw [renderTok_avt]

/-- The variable fold on a rendered well-formed template, segment-wise. -/
theorem resolveVars_tokenwise (vars : List (String × Value)) (ts : List Tok)
    (hvars : varsWFb vars = true) (hts : ∀ t ∈ ts, wfTok t = true) :
    resolveVars (String.mk (render ts)) vars =
      (String.mk (catLists (ts.map (fun t => renderTok (applyVarsTok vars t)))), none) := by
  rw [resolveVars_render vars hvars ts hts, applyVarsT_map, render_eq_cat, List.map_map]
  rfl

/-- The ambient replacement on a rendered template substitutes exactly the
matching reserved placeholder tokens, token-wise. -/
theorem resolveAmbient_render (ts : List Tok) (hts : ∀ t ∈ ts, wfTok t = true)
    (n0 : String) (d : String) (hn0 : ∀ c ∈ n0.data, c.isAlpha = true) :
    goReplace (String.mk (render ts)) (phStr n0) d =
      String.mk (render (ts.map (substTok n0.data d.data))) := by
  simp only [goReplace, phStr]
  congr 1
  exact replaceAll_render n0.data d.data hn0 ts hts

/-- Values without a textual form do not trigger the ambient replacement. -/
theorem resolveAmbient_id (cmd : String) (raw : Value) (hraw : textOf? raw = none) :
    resolveAmbient cmd raw = cmd := by
  cases raw <;> simp_all [textOf?, resolveAmbient]

/-- For an ambient value without a textual form, the expected resolution of
a token is the variable lookup alone. -/
theorem resolveTokC_default (raw : Value) (hraw : textOf? raw = none)
    (vars : List (String × Value)) (t : Tok) :
    resolveTokC raw vars t =
      (match t with
       | .lit cs => cs
       | .ph m =>
         match vars.find? (fun nv => nv.1 == String.mk m) with
         | some nv => (textD nv.2).data
         | none => phData m) := by
  cases raw <;> simp_all [textOf?] <;> cases t <;> simp [resolveTokC]

/-- Substitution for an ambient value without a textual form, segment-wise. -/
theorem execResolveT_noamb (raw : Value) (hraw : textOf? raw = none)
    (ts : List Tok) (vars : List (String × Value))
    (hts : ∀ t ∈ ts, wfTok t = true) (hvars : varsWFb vars = true) :
    execResolveT (String.mk (render ts)) raw vars =
      (String.mk (catLists (ts.map (resolveTokC raw vars))), none) := by
  have h0 : execResolveT (String.mk (render ts)) raw vars =
      resolveVars (String.mk (render ts)) vars := by
    simp [execResolveT, resolveAmbient_id _ _ hraw]
  rw [h0, resolveVars_tokenwise vars ts hvars hts]
  congr 2
  congr 1
  apply List.map_congr_left
  intro t _
  rw [renderTok_avt, resolveTokC_default raw hraw]

/-- Substitution after one ambient replacement, segment-wise. -/
theorem execResolveT_amb_core (ts : List Tok) (vars : List (String × Value))
    (hts : ∀ t ∈ ts, wfTok t = true) (hvars : varsWFb vars = true)
    (n0 : String) (d : String) (hn0 : ∀ c ∈ n0.data, c.isAlpha = true)
    (hd : ∀ c ∈ d.data, c ≠ '#') :
    resolveVars (goReplace (String.mk (render ts)) (phStr n0) d) vars =
      (String.mk (catLists (ts.map
         (fun t => renderTok (applyVarsTok vars (substTok n0.data d.data t))))), none) := by
  rw [resolveAmbient_render ts hts n0 d hn0]
  rw [resolveVars_tokenwise vars _ hvars (fun t ht => by
    rcases List.mem_map.mp ht with ⟨u, hu, rfl⟩
    exact wfTok_substTok _ _ hd u (hts u hu))]
  congr 2
  rw [List.map_map]
  rfl

/-- C3: for every command template given as a well-formed token sequence,
every variable store whose values are strings, byte slices or file handles
with hash-free textual forms, and every ambient value with a hash-free
textual form, the substitution performed by Exec resolves each placeholder
token simultaneously: ambient content and file placeholders to the ambient
value's text or path, each bound name to its variable's textual form, and
every placeholder whose name is neither ambient nor bound stays unchanged;
no error is reported. -/
theorem C3_substitution (ts : List Tok) (raw : Value) (vars : List (String × Value))
    (hts : ∀ t ∈ ts, wfTok t = true) (hvars : varsWFb vars = true)
    (hamb : ambWFb raw = true) :
    execResolveT (String.mk (render ts)) raw vars =
      (String.mk (catLists (ts.map (resolveTokC raw vars))), none) := by
  cases raw with
  | text d =>
    have hd : ∀ c ∈ d.data, c ≠ '#' := by simpa [ambWFb] using hamb
    have h0 : execResolveT (String.mk (render ts)) (.text d) vars =
        resolveVars (goReplace (String.mk (render ts)) (phStr "content") d) vars := rfl
    rw [h0, execResolveT_amb_core ts vars hts hvars "content" d (by decide) hd]
    congr 2
    congr 1
    apply List.map_congr_left
    intro t _
    rw [renderTok_avt_subst]
    cases t with
    | lit cs => rfl
    | ph m => simp [resolveTokC]
  | bytes d =>
    have hd : ∀ c ∈ d.data, c ≠ '#' := by simpa [ambWFb] using hamb
    have h0 : execResolveT (String.mk (render ts)) (.bytes d) vars =
        resolveVars (goReplace (String.mk (render ts)) (phStr "content") d) vars := rfl
    rw [h0, execResolveT_amb_core ts vars hts hvars "content" d (by decide) hd]
    congr 2
    congr 1
    apply List.map_congr_left
    intro t _
    rw [renderTok_avt_subst]
    cases t with
    | lit cs => rfl
    | ph m => simp [resolveTokC]
  | file p =>
    have hd : ∀ c ∈ p.data, c ≠ '#' := by simpa [ambWFb] using hamb
    have h0 : execResolveT (String.mk (render ts)) (.file p) vars =
        resolveVars (goReplace (String.mk (render ts)) (phStr "file") p) vars := rfl
    rw [h0, execResolveT_amb_core ts vars hts hvars "file" p (by decide) hd]
    congr 2
    congr 1
    apply List.map_congr_left
    intro t _
    rw [renderTok_avt_subst]
    cases t with
    | lit cs => rfl
    | ph m => simp [resolveTokC]
  | empty => exact execResolveT_noamb Value.empty rfl ts vars hts hvars
  | svd n v => exact execResolveT_noamb (Value.svd n v) rfl ts vars hts hvars
  | splitRes a b => exact execResolveT_noamb (Value.splitRes a b) rfl ts vars hts hvars
  | intercept a b => exact execResolveT_noamb (Value.intercept a b) rfl ts vars hts hvars
  | obj g => exact execResolveT_noamb (Value.obj g) rfl ts vars hts hvars

/-- C3 witness: the specification's two examples, through the theorem.  The
first resolves a-dash-content-dash-b with a bound to X, b bound to a file
handle and ambient Z, giving X, Z and the file path joined by dashes; the
second leaves the unbound placeholder of echo untouched. -/
theorem C3_substitution_witness :
    execResolveT (String.mk (render tsEx)) (.text "Z") varsEx = ("X-Z-/tmp/y", none) ∧
    execResolveT (String.mk (render tsEx2)) (.text "Z") [] =
      (String.mk (render tsEx2), none) := by
  constructor
  · exact (C3_substitution tsEx (.text "Z") varsEx (by decide) (by decide) (by decide)).trans
      (by decide)
  · exact (C3_substitution tsEx2 (.text "Z") [] (by decide) (by decide) (by decide)).trans
      (by decide)

/-- replaceVar fails exactly on values without a textual form. -/
theorem replaceVar_none (cmd n : String) (v : Value) (h : textOf? v = none) :
    replaceVar cmd n v = .error unsupportedMsg := by
  cases v <;> simp_all [textOf?, replaceVar]

/-- replaceVar succeeds on values with a textual form. -/
theorem replaceVar_some (cmd n : String) (v : Value) (d : String) (h : textOf? v = some d) :
    replaceVar cmd n v = .ok (goReplace cmd (phStr n) d) := by
  cases v <;> simp_all [textOf?, replaceVar]

/-- Replacing a placeholder inside hash-free text changes nothing. -/
theorem goReplace_id (s n rep : String) (h : ∀ c ∈ s.data, c ≠ '#') :
    goReplace s (phStr n) rep = s := by
  simp only [goReplace, phStr]
  have hph : phData n.data = '#' :: ('\x7b' :: n.data ++ ['\x7d']) := by simp [phData]
  rw [hph, replaceAll_no_head _ _ _ _ h]

/-- The ambient replacement fixes hash-free text. -/
theorem resolveAmbient_hashfree (r : String) (raw : Value) (h : ∀ c ∈ r.data, c ≠ '#') :
    resolveAmbient r raw = r := by
  cases raw <;> simp [resolveAmbient, goReplace_id _ _ _ h]

/-- A successful variable fold had only values with textual forms. -/
theorem resolveVars_ok_textual :
    ∀ (vars : List (String × Value)) (c r : String),
      resolveVars c vars = (r, none) → ∀ nv ∈ vars, textOf? nv.2 ≠ none := by
  intro vars
  induction vars with
  | nil => intro c r _ nv hnv; simp at hnv
  | cons mu rest ih =>
    intro c r hres nv hnv
    obtain ⟨m, u⟩ := mu
    by_cases hu : textOf? u = none
    · rw [show resolveVars c ((m, u) :: rest) =
          (match replaceVar c m u with
           | .error e => ("", some e)
           | .ok c2 => resolveVars c2 rest) from rfl,
        replaceVar_none c m u hu] at hres
      simp at hres
    · obtain ⟨d, hd⟩ : ∃ d, textOf? u = some d := Option.ne_none_iff_exists'.mp hu
      rcases List.mem_cons.mp hnv with h | h
      · subst h; exact hu
      · rw [show resolveVars c ((m, u) :: rest) =
            (match replaceVar c m u with
             | .error e => ("", some e)
             | .ok c2 => resolveVars c2 rest) from rfl,
          replaceVar_some c m u d hd] at hres
        exact ih _ r hres nv h

/-- The variable fold fixes hash-free text when every value is textual. -/
theorem resolveVars_hashfree :
    ∀ (vars : List (String × Value)), (∀ nv ∈ vars, textOf? nv.2 ≠ none) →
      ∀ r : String, (∀ c ∈ r.data, c ≠ '#') → resolveVars r vars = (r, none) := by
  intro vars
  induction vars with
  | nil => intro _ r _; rfl
  | cons mu rest ih =>
    intro htex r hr
    obtain ⟨m, u⟩ := mu
    obtain ⟨d, hd⟩ : ∃ d, textOf? u = some d :=
      Option.ne_none_iff_exists'.mp (htex (m, u) (by simp))
    rw [show resolveVars r ((m, u) :: rest) =
        (match replaceVar r m u with
         | .error e => ("", some e)
         | .ok c2 => resolveVars c2 rest) from rfl,
      replaceVar_some r m u d hd]
    simp only [goReplace_id r m d hr]
    exact ih (fun nv hnv => htex nv (by simp [hnv])) r hr

/-- C9 counterexample: invoking the same Exec stage twice with the same
intercepted input yields different resolved command texts, because the
closure overwrites its captured template: the variable a is bound to text
that itself contains the placeholder of a, the first invocation resolves
the template to that text, and the second invocation starts from the
already-substituted template and substitutes again. -/
theorem C9_counterexample :
    (execInvoke "#\x7ba\x7d" (Value.intercept .empty [("a", Value.text "#\x7ba\x7dx")])
        (fun _ => quietOutcome)).1 = "#\x7ba\x7dx" ∧
    (execInvoke "#\x7ba\x7dx" (Value.intercept .empty [("a", Value.text "#\x7ba\x7dx")])
        (fun _ => quietOutcome)).1 = "#\x7ba\x7dxx" ∧
    ("#\x7ba\x7dx" : String) ≠ "#\x7ba\x7dxx" := by
  refine ⟨by decide, by decide, by decide⟩

/-- C9 amended: invoking an Exec stage overwrites the captured template
with the substitution result, so two invocations agree only when
substitution is idempotent on the first result; in particular, when the
first resolved text contains no hash character, a second invocation with
the same ambient value and variable store resolves to the same text. -/
theorem C9_amended (cmd r : String) (raw : Value) (vars : List (String × Value))
    (h : execResolveT cmd raw vars = (r, none)) (hr : ∀ c ∈ r.data, c ≠ '#') :
    execResolveT r raw vars = (r, none) := by
  have htex : ∀ nv ∈ vars, textOf? nv.2 ≠ none :=
    resolveVars_ok_textual vars (resolveAmbient cmd raw) r h
  show resolveVars (resolveAmbient r raw) vars = (r, none)
  rw [resolveAmbient_hashfree r raw hr]
  exact resolveVars_hashfree vars htex r hr

/-- C9 amended witness: a template whose substitution introduces no new
placeholders resolves to the same text on a repeated invocation. -/
theorem C9_amended_witness :
    execResolveT "echo X" Value.empty [("a", Value.text "X")] = ("echo X", none) :=
  C9_amended "echo #\x7ba\x7d" "echo X" Value.empty [("a", Value.text "X")]
    (by decide) (by decide)

/-- C8 counterexample: substitution over a store binding the name zz to a
structured value fails, but the returned error is replaceVar's fixed
message, which does not contain the name of the offending variable. -/
theorem C8_counterexample :
    execResolveT "echo #\x7bzz\x7d" Value.empty [("zz", Value.obj 0)] =
      ("", some unsupportedMsg) ∧
    listContainsSub unsupportedMsg.data "zz".data = false := by
  refine ⟨by decide, by decide⟩

/-- C8 amended: when the variable fold reaches a binding whose value is
neither text, bytes nor a file handle (every earlier binding being
textual), the Exec substitution fails with the fixed
unsupported-variable-type message, which does not name the offending
variable. -/
theorem C8_amended (cmd : String) (raw : Value) (vs1 : List (String × Value))
    (n : String) (v : Value) (vs2 : List (String × Value))
    (h1 : ∀ nv ∈ vs1, textOf? nv.2 ≠ none) (h2 : textOf? v = none) :
    execResolveT cmd raw (vs1 ++ (n, v) :: vs2) = ("", some unsupportedMsg) := by
  show resolveVars (resolveAmbient cmd raw) (vs1 ++ (n, v) :: vs2) = ("", some unsupportedMsg)
  generalize resolveAmbient cmd raw = c
  induction vs1 generalizing c with
  | nil =>
    simp only [List.nil_append]
    rw [show resolveVars c ((n, v) :: vs2) =
        (match replaceVar c n v with
         | .error e => ("", some e)
         | .ok c2 => resolveVars c2 vs2) from rfl,
      replaceVar_none c n v h2]
  | cons mu rest ih =>
    obtain ⟨m, u⟩ := mu
    obtain ⟨d, hd⟩ : ∃ d, textOf? u = some d :=
      Option.ne_none_iff_exists'.mp (h1 (m, u) (by simp))
    simp only [List.cons_append]
    rw [show resolveVars c (((m, u) :: (rest ++ (n, v) :: vs2))) =
        (match replaceVar c m u with
         | .error e => ("", some e)
         | .ok c2 => resolveVars c2 (rest ++ (n, v) :: vs2)) from rfl,
      replaceVar_some c m u d hd]
    exact ih (fun nv hnv => h1 nv (by simp [hnv])) _

/-- C8 amended witness: a store with one textual binding followed by a nil
binding makes substitution fail with the fixed message. -/
theorem C8_amended_witness :
    execResolveT "run #\x7bq\x7d" (Value.text "T") [("p", Value.text "1"), ("q", Value.empty)] =
      ("", some unsupportedMsg) :=
  C8_amended "run #\x7bq\x7d" (Value.text "T") [("p", Value.text "1")] "q" Value.empty []
    (by decide) (by decide)

/-- C4: the executor does not return an error exactly on the listed
failures.  A command that exits zero but whose output drain fails returns
no error and no output, because line 336 returns the nil error of
cmd.Wait instead of the drain error; a non-zero exit and a spawn failure
do produce the error, and a clean run returns the accumulated standard
output bytes. -/
theorem C4_drain_failure_no_error :
    doExecute ⟨none, none, none, none, none, some "read error", none, "out"⟩ =
      (.empty, none) ∧
    doExecute ⟨none, none, none, none, none, none, some "read error", "out"⟩ =
      (.empty, none) ∧
    doExecute ⟨none, none, none, none, some "exit status 1", none, none, "out"⟩ =
      (.empty, some "exit status 1") ∧
    doExecute ⟨none, none, none, some "spawn failed", none, none, none, ""⟩ =
      (.empty, some "spawn failed") ∧
    doExecute ⟨none, none, none, none, none, none, none, "hello"⟩ =
      (.bytes "hello", none) :=
  ⟨rfl, rfl, rfl, rfl, rfl⟩

/-- C10: an ExcludeLines stage on any input that is neither a string nor a
byte slice returns the empty string with no error, silently discarding the
input. -/
theorem C10_exclude_lines_non_string (sep : String) (excl : List String) (inp : Value)
    (w : World) (h1 : ∀ s, inp ≠ .text s) (h2 : ∀ s, inp ≠ .bytes s) :
    applyStage (.excludeLines sep excl) inp w = ⟨.text "", none, w, []⟩ := by
  cases inp with
  | text s => exact absurd rfl (h1 s)
  | bytes s => exact absurd rfl (h2 s)
  | empty => rfl
  | file p => rfl
  | svd n v => rfl
  | splitRes a b => rfl
  | intercept a b => rfl
  | obj g => rfl

/-- C10 witness: a file-handle input is silently discarded. -/
theorem C10_exclude_lines_witness :
    applyStage (.excludeLines "\n" ["x"]) (Value.file "/tmp/z") w0x =
      ⟨.text "", none, w0x, []⟩ :=
  C10_exclude_lines_non_string "\n" ["x"] (Value.file "/tmp/z") w0x
    (fun _ h => Value.noConfusion h) (fun _ h => Value.noConfusion h)

/-- A valid fresh SaveInVar stage produces the save marker. -/
theorem applyStage_saveInVar_ok (n : String) (v : Value) (w : World)
    (hvalid : validVarName n = true) (hn1 : n ≠ "content") (hn2 : n ≠ "file") :
    applyStage (.saveInVar n) v w = ⟨.svd n v, none, w, []⟩ := by
  simp [applyStage, hvalid, hn1, hn2]

/-- C5: when a SaveInVar stage succeeds (its name is valid and not yet
bound), the value threaded to the remaining stages, and hence to the
immediately following stage and out of Run when it was the last stage, is
the variable-binding marker itself, carrying the name and the wrapped
value, and that marker is distinct from the value it wraps. -/
theorem C5_binding_marker_passthrough (n : String) (v : Value) (rest : List Stage)
    (vars : List (String × Value)) (cfs rfs : List String) (w : World) (tr : List Event)
    (hvalid : validVarName n = true) (hn1 : n ≠ "content") (hn2 : n ≠ "file")
    (hnew : (vars.find? (fun nv => nv.1 == n)).isSome = false) :
    runLoop (.saveInVar n :: rest) v vars cfs rfs w tr =
      runLoop rest (.svd n v) (vars ++ [(n, v)]) cfs rfs w tr ∧
    Value.svd n v ≠ v := by
  constructor
  · simp only [runLoop, isExec, applyStage_saveInVar_ok n v w hvalid hn1 hn2, hnew,
      Bool.false_eq_true, if_false, List.append_nil]
  · intro h
    have hs := congrArg sizeOf h
    simp only [Value.svd.sizeOf_spec] at hs
    omega

/-- C5 witness: a concrete successful binding threads the marker. -/
theorem C5_binding_marker_witness :
    runLoop [Stage.saveInVar "myVar"] (Value.text "hello") [] [] [] w0x [] =
      runLoop [] (Value.svd "myVar" (Value.text "hello"))
        [("myVar", Value.text "hello")] [] [] w0x [] ∧
    Value.svd "myVar" (Value.text "hello") ≠ Value.text "hello" :=
  C5_binding_marker_passthrough "myVar" (Value.text "hello") [] [] [] [] w0x []
    (by decide) (by decide) (by decide) (by decide)

/-- C6: a second bind of an already-bound name breaks the run with the
duplicate-variable error carrying the name; the result does not depend on
the remaining stages (none of them execute), and the variable store is
returned unchanged, still holding the value of the first bind. -/
theorem C6_duplicate_variable (n : String) (v0 vIn : Value) (rest : List Stage)
    (vars : List (String × Value)) (cfs rfs : List String) (w : World) (tr : List Event)
    (hvalid : validVarName n = true) (hn1 : n ≠ "content") (hn2 : n ≠ "file")
    (hbound : vars.find? (fun nv => nv.1 == n) = some (n, v0)) :
    (∀ rest2 : List Stage, runLoop (.saveInVar n :: rest2) vIn vars cfs rfs w tr =
      ⟨.svd n vIn, some ("variable: " ++ n ++ " already exists"), vars, cfs, rfs, w, tr⟩) ∧
    (runLoop (.saveInVar n :: rest) vIn vars cfs rfs w tr).vars.find?
        (fun nv => nv.1 == n) = some (n, v0) := by
  have hstep : ∀ rest2 : List Stage, runLoop (.saveInVar n :: rest2) vIn vars cfs rfs w tr =
      ⟨.svd n vIn, some ("variable: " ++ n ++ " already exists"), vars, cfs, rfs, w, tr⟩ := by
    intro rest2
    simp only [runLoop, isExec, applyStage_saveInVar_ok n vIn w hvalid hn1 hn2, hbound,
      Bool.false_eq_true, if_false, List.append_nil, Option.isSome_some, if_true]
  exact ⟨hstep, by rw [hstep rest]; exact hbound⟩

/-- C6 witness: a concrete duplicate bind fails with the message naming the
variable, skips the remaining stage, and keeps the first value. -/
theorem C6_duplicate_variable_witness :
    (∀ rest2 : List Stage, runLoop [Stage.saveInVar "myVar"] (Value.text "second")
        [("myVar", Value.text "hello")] [] [] w0x [] =
      runLoop (Stage.saveInVar "myVar" :: rest2) (Value.text "second")
        [("myVar", Value.text "hello")] [] [] w0x []) ∧
    runLoop [Stage.saveInVar "myVar"] (Value.text "second")
        [("myVar", Value.text "hello")] [] [] w0x [] =
      ⟨Value.svd "myVar" (Value.text "second"), some "variable: myVar already exists",
       [("myVar", Value.text "hello")], [], [], w0x, []⟩ := by
  have h := C6_duplicate_variable "myVar" (Value.text "hello") (Value.text "second") []
    [("myVar", Value.text "hello")] [] [] w0x [] (by decide) (by decide) (by decide) rfl
  exact ⟨fun rest2 => ((h.1 []).trans (h.1 rest2).symm), (h.1 []).trans (by rfl)⟩

/-- C7: the Split stage first runs the nested pipeline Insert of the input
followed by the left stages to completion; a left failure is the stage's
own error, returned with the original input value and independent of the
right stages, which never execute; only when the left run succeeds does the
right nested pipeline run, a right failure likewise becoming the stage's
error with the left result discarded; when both succeed, the stage returns
the pair of both outputs.  Both nested runs go through runGo, which by
definition starts from a fresh empty variable store and fresh resource
lists, sharing with the outer run only the input value and the world. -/
theorem C7_split_combinator (l r2 : List Stage) (v : Value) (w : World) :
    (∀ e, (runGo (Stage.insert v :: l) w).err = some e →
      applyStage (Split l r2) v w =
        ⟨v, some e, (runGo (Stage.insert v :: l) w).world,
         (runGo (Stage.insert v :: l) w).trace⟩ ∧
      ∀ r3 : List Stage, applyStage (Split l r3) v w = applyStage (Split l r2) v w) ∧
    (∀ e, (runGo (Stage.insert v :: l) w).err = none →
      (runGo (Stage.insert v :: r2) (runGo (Stage.insert v :: l) w).world).err = some e →
      applyStage (Split l r2) v w =
        ⟨v, some e,
         (runGo (Stage.insert v :: r2) (runGo (Stage.insert v :: l) w).world).world,
         (runGo (Stage.insert v :: l) w).trace ++
           (runGo (Stage.insert v :: r2) (runGo (Stage.insert v :: l) w).world).trace⟩) ∧
    ((runGo (Stage.insert v :: l) w).err = none →
      (runGo (Stage.insert v :: r2) (runGo (Stage.insert v :: l) w).world).err = none →
      applyStage (Split l r2) v w =
        ⟨.splitRes (runGo (Stage.insert v :: l) w).val
           (runGo (Stage.insert v :: r2) (runGo (Stage.insert v :: l) w).world).val,
         none,
         (runGo (Stage.insert v :: r2) (runGo (Stage.insert v :: l) w).world).world,
         (runGo (Stage.insert v :: l) w).trace ++
           (runGo (Stage.insert v :: r2) (runGo (Stage.insert v :: l) w).world).trace⟩) := by
  refine ⟨?_, ?_, ?_⟩
  · intro e he
    constructor
    · simp only [Split, applyStage, he]
    · intro r3
      simp only [Split, applyStage, he]
  · intro e hl hr
    simp only [Split, applyStage, hl, hr]
  · intro hl hr
    simp only [Split, applyStage, hl, hr]

/-- C7 witness: a failing left branch aborts the Split with the left error
and the original input, and the result does not depend on the right
branch. -/
theorem C7_split_combinator_witness :
    applyStage (Split [failStage "left broke"] [Stage.insert (Value.text "R")])
        (Value.text "V") w0x =
      ⟨Value.text "V", some "left broke", w0x, []⟩ ∧
    applyStage (Split [failStage "left broke"] [Stage.insert (Value.text "other")])
        (Value.text "V") w0x =
      applyStage (Split [failStage "left broke"] [Stage.insert (Value.text "R")])
        (Value.text "V") w0x := by
  have h := (C7_split_combinator [failStage "left broke"] [Stage.insert (Value.text "R")]
    (Value.text "V") w0x).1 "left broke" rfl
  exact ⟨h.1.trans (by rfl), h.2 [Stage.insert (Value.text "other")]⟩

/-- Splitting at a character absent from the list yields the whole list. -/
theorem splitOnChar_no_sep (sep : Char) :
    ∀ l : List Char, sep ∉ l → splitOnChar sep l = [l] := by
  intro l
  induction l with
  | nil => intro _; rfl
  | cons c cs ih =>
    intro h
    have hc : ¬ c = sep := fun hEq => h (by simp [hEq])
    have hcs : sep ∉ cs := fun hmem => h (by simp [hmem])
    simp only [splitOnChar, if_neg hc, ih hcs]

/-- path.Base is the identity on non-empty slash-free names. -/
theorem goPathBase_no_slash (p : String) (hne : p ≠ "") (h : '/' ∉ p.data) :
    goPathBase p = p := by
  have hd : p.data ≠ [] := by
    intro hnil
    exact hne (by cases p; simp_all)
  simp only [goPathBase, if_neg hne, splitOnChar_no_sep '/' p.data h]
  simp [hd, List.getLast?]

/-- Engine-created temporary names are classified as temporary. -/
theorem isTempName_tempName (n : Nat) : isTempName (tempName n) = true := by
  have hdata : (tempName n).data = temporaryFilePref.data ++ List.replicate n 'x' := rfl
  have hslash : '/' ∉ (tempName n).data := by
    rw [hdata]
    intro hmem
    rcases List.mem_append.mp hmem with h | h
    · exact absurd h (by decide)
    · exact absurd (List.eq_of_mem_replicate h) (by decide)
  have hne : tempName n ≠ "" := by
    intro hEq
    have : (tempName n).data = [] := by rw [hEq]
    rw [hdata] at this
    exact absurd (List.append_eq_nil.mp this).1 (by decide)
  simp only [isTempName, goPathBase_no_slash (tempName n) hne hslash, hdata]
  rw [List.isPrefixOf_iff_prefix]
  exact List.prefix_append _ _

/-- The executor never returns a file handle. -/
theorem doExecute_not_file (o : ExecOutcome) (p : String) :
    (doExecute o).1 ≠ Value.file p := by
  rcases o with ⟨g, so, se, st, wa, d1, d2, out⟩
  unfold doExecute
  cases g <;> cases so <;> cases se <;> cases st <;> cases wa <;>
    simp only [] <;> first
      | (intro hx; exact Value.noConfusion hx)
      | (split <;> intro hx <;> exact Value.noConfusion hx)

/-- The resource effect of one tame stage invocation: it creates a list of
temp-named files, appended to the world's files and reported as creation
events, with the failure oracles untouched.  When the invocation succeeds,
a returned file handle is the created temporary file when temp-named, and
nothing was created when the output is persistent or not a file at all; a
failing WriteTempFile invocation instead leaves its created file behind
without returning it. -/
theorem stage_resource_shape (s : Stage) (hs : TameStage s) (inp : Value) (w : World) :
    ∃ created : List String,
      (applyStage s inp w).world.files = w.files ++ created ∧
      (applyStage s inp w).world.closeFails = w.closeFails ∧
      (applyStage s inp w).world.removeFails = w.removeFails ∧
      (applyStage s inp w).events = created.map Event.createdTemp ∧
      (∀ p ∈ created, isTempName p = true) ∧
      ((applyStage s inp w).err = none →
        (∀ p, (applyStage s inp w).out = .file p →
          (isTempName p = true → created = [p]) ∧ (isTempName p = false → created = [])) ∧
        ((∀ p, (applyStage s inp w).out ≠ .file p) → created = [])) := by
  cases s with
  | insert v =>
    refine ⟨[], by simp [applyStage], by simp [applyStage], by simp [applyStage],
      by simp [applyStage], by simp, fun _ => ⟨?_, fun _ => rfl⟩⟩
    intro p hp
    simp only [applyStage] at hp
    exact ⟨fun htrue => absurd htrue (by simp [hs p hp]), fun _ => rfl⟩
  | saveInVar n =>
    by_cases hc : (n == "content" || n == "file" || !validVarName n) = true
    · refine ⟨[], ?_, ?_, ?_, ?_, by simp, fun _ => ⟨?_, fun _ => rfl⟩⟩ <;>
        simp [applyStage, hc]
    · refine ⟨[], ?_, ?_, ?_, ?_, by simp, fun _ => ⟨?_, fun _ => rfl⟩⟩ <;>
        simp [applyStage, hc]
  | exec cmd =>
    refine ⟨[], by simp [applyStage], by simp [applyStage], by simp [applyStage],
      by simp [applyStage], by simp, fun _ => ⟨?_, fun _ => rfl⟩⟩
    intro p hp
    exfalso
    simp only [applyStage] at hp
    revert hp
    cases inp with
    | intercept raw vars =>
      simp only [execInvoke]
      rcases hres : execResolveT cmd raw vars with ⟨c2, e2⟩
      cases e2 with
      | none => exact doExecute_not_file (w.exec c2) p
      | some e3 => intro hp; exact Value.noConfusion hp
    | empty => simp only [execInvoke]; intro hp; exact Value.noConfusion hp
    | text d => simp only [execInvoke]; intro hp; exact Value.noConfusion hp
    | bytes d => simp only [execInvoke]; intro hp; exact Value.noConfusion hp
    | file q => simp only [execInvoke]; intro hp; exact Value.noConfusion hp
    | svd a b => simp only [execInvoke]; intro hp; exact Value.noConfusion hp
    | splitRes a b => simp only [execInvoke]; intro hp; exact Value.noConfusion hp
    | obj g => simp only [execInvoke]; intro hp; exact Value.noConfusion hp
  | writeTempFile =>
    cases inp with
    | text d =>
      by_cases hwF : tempName w.tempCtr ∈ w.writeFails
      · refine ⟨[tempName w.tempCtr], ?_, ?_, ?_, ?_, ?_, ?_⟩
        · simp [applyStage, hwF]
        · simp [applyStage, hwF]
        · simp [applyStage, hwF]
        · simp [applyStage, hwF]
        · intro p hp
          simp only [List.mem_singleton] at hp
          subst hp
          exact isTempName_tempName _
        · intro he
          exfalso
          simp [applyStage, hwF] at he
      · by_cases hcF : tempName w.tempCtr ∈ w.closeFails
        · refine ⟨[tempName w.tempCtr], ?_, ?_, ?_, ?_, ?_, ?_⟩
          · simp [applyStage, hwF, hcF]
          · simp [applyStage, hwF, hcF]
          · simp [applyStage, hwF, hcF]
          · simp [applyStage, hwF, hcF]
          · intro p hp
            simp only [List.mem_singleton] at hp
            subst hp
            exact isTempName_tempName _
          · intro he
            exfalso
            simp [applyStage, hwF, hcF] at he
        · refine ⟨[tempName w.tempCtr], ?_, ?_, ?_, ?_, ?_, ?_⟩
          · simp [applyStage, hwF, hcF]
          · simp [applyStage, hwF, hcF]
          · simp [applyStage, hwF, hcF]
          · simp [applyStage, hwF, hcF]
          · intro p hp
            simp only [List.mem_singleton] at hp
            subst hp
            exact isTempName_tempName _
          · intro _
            constructor
            · intro p hp
              simp only [applyStage, if_neg hwF, if_neg hcF] at hp
              injection hp with hp
              subst hp
              exact ⟨fun _ => rfl,
                fun hfalse => absurd (isTempName_tempName w.tempCtr) (by rw [hfalse]; decide)⟩
            · intro hnp
              exact absurd (show (applyStage Stage.writeTempFile (Value.text d) w).out =
                Value.file (tempName w.tempCtr) by simp [applyStage, hwF, hcF])
                (hnp (tempName w.tempCtr))
    | bytes d =>
      by_cases hwF : tempName w.tempCtr ∈ w.writeFails
      · refine ⟨[tempName w.tempCtr], ?_, ?_, ?_, ?_, ?_, ?_⟩
        · simp [applyStage, hwF]
        · simp [applyStage, hwF]
        · simp [applyStage, hwF]
        · simp [applyStage, hwF]
        · intro p hp
          simp only [List.mem_singleton] at hp
          subst hp
          exact isTempName_tempName _
        · intro he
          exfalso
          simp [applyStage, hwF] at he
      · by_cases hcF : tempName w.tempCtr ∈ w.closeFails
        · refine ⟨[tempName w.tempCtr], ?_, ?_, ?_, ?_, ?_, ?_⟩
          · simp [applyStage, hwF, hcF]
          · simp [applyStage, hwF, hcF]
          · simp [applyStage, hwF, hcF]
          · simp [applyStage, hwF, hcF]
          · intro p hp
            simp only [List.mem_singleton] at hp
            subst hp
            exact isTempName_tempName _
          · intro he
            exfalso
            simp [applyStage, hwF, hcF] at he
        · refine ⟨[tempName w.tempCtr], ?_, ?_, ?_, ?_, ?_, ?_⟩
          · simp [applyStage, hwF, hcF]
          · simp [applyStage, hwF, hcF]
          · simp [applyStage, hwF, hcF]
          · simp [applyStage, hwF, hcF]
          · intro p hp
            simp only [List.mem_singleton] at hp
            subst hp
            exact isTempName_tempName _
          · intro _
            constructor
            · intro p hp
              simp only [applyStage, if_neg hwF, if_neg hcF] at hp
              injection hp with hp
              subst hp
              exact ⟨fun _ => rfl,
                fun hfalse => absurd (isTempName_tempName w.tempCtr) (by rw [hfalse]; decide)⟩
            · intro hnp
              exact absurd (show (applyStage Stage.writeTempFile (Value.bytes d) w).out =
                Value.file (tempName w.tempCtr) by simp [applyStage, hwF, hcF])
                (hnp (tempName w.tempCtr))
    | empty =>
      exact ⟨[], by simp [applyStage], by simp [applyStage], by simp [applyStage],
        by simp [applyStage], by simp,
        fun _ => ⟨fun p hp => absurd hp (by simp [applyStage]), fun _ => rfl⟩⟩
    | file q =>
      exact ⟨[], by simp [applyStage], by simp [applyStage], by simp [applyStage],
        by simp [applyStage], by simp,
        fun _ => ⟨fun p hp => absurd hp (by simp [applyStage]), fun _ => rfl⟩⟩
    | svd a b =>
      exact ⟨[], by simp [applyStage], by simp [applyStage], by simp [applyStage],
        by simp [applyStage], by simp,
        fun _ => ⟨fun p hp => absurd hp (by simp [applyStage]), fun _ => rfl⟩⟩
    | splitRes a b =>
      exact ⟨[], by simp [applyStage], by simp [applyStage], by simp [applyStage],
        by simp [applyStage], by simp,
        fun _ => ⟨fun p hp => absurd hp (by simp [applyStage]), fun _ => rfl⟩⟩
    | intercept a b =>
      exact ⟨[], by simp [applyStage], by simp [applyStage], by simp [applyStage],
        by simp [applyStage], by simp,
        fun _ => ⟨fun p hp => absurd hp (by simp [applyStage]), fun _ => rfl⟩⟩
    | obj g =>
      exact ⟨[], by simp [applyStage], by simp [applyStage], by simp [applyStage],
        by simp [applyStage], by simp,
        fun _ => ⟨fun p hp => absurd hp (by simp [applyStage]), fun _ => rfl⟩⟩
  | excludeLines sep excl =>
    exact ⟨[], by simp [applyStage], by simp [applyStage], by simp [applyStage],
      by simp [applyStage], by simp,
      fun _ => ⟨fun p hp => absurd hp (by simp [applyStage]), fun _ => rfl⟩⟩
  | fn f =>
    obtain ⟨hw, hev, hout⟩ := hs inp w
    refine ⟨[], ?_, ?_, ?_, ?_, by simp, fun _ => ⟨?_, fun _ => rfl⟩⟩
    · simp [applyStage, hw]
    · simp [applyStage, hw]
    · simp [applyStage, hw]
    · simp [applyStage, hev]
    · intro p hp
      exact ⟨fun htrue => absurd htrue (by simp [hout p hp]), fun _ => rfl⟩

/-- The resource invariant of Run's stage loop over tame stages: the two
tracking lists only grow, every registered temporary file is temp-named and
every registered persistent file is not, the failure oracles are untouched,
and the world gains the registered temporary files in registration order,
plus possibly the files a breaking WriteTempFile stage created without
returning (the leak), whose creations also close the effect list; the leak
is empty whenever the loop ends without an error. -/
theorem runLoop_resources :
    ∀ (stages : List Stage), (∀ s ∈ stages, TameStage s) →
    ∀ (input : Value) (vars : List (String × Value)) (cfs rfs : List String)
      (w : World) (tr : List Event),
    ∃ dc dr leak : List String,
      (runLoop stages input vars cfs rfs w tr).cfs = cfs ++ dc ∧
      (runLoop stages input vars cfs rfs w tr).rfs = rfs ++ dr ∧
      (runLoop stages input vars cfs rfs w tr).w.files = w.files ++ dr ++ leak ∧
      (runLoop stages input vars cfs rfs w tr).w.closeFails = w.closeFails ∧
      (runLoop stages input vars cfs rfs w tr).w.removeFails = w.removeFails ∧
      (runLoop stages input vars cfs rfs w tr).tr =
        tr ++ dr.map Event.createdTemp ++ leak.map Event.createdTemp ∧
      (∀ p ∈ dr, isTempName p = true) ∧
      (∀ p ∈ dc, isTempName p = false) ∧
      (∀ p ∈ leak, isTempName p = true) ∧
      ((runLoop stages input vars cfs rfs w tr).err = none → leak = []) := by
  intro stages
  induction stages with
  | nil =>
    intro _ input vars cfs rfs w tr
    exact ⟨[], [], [], by simp [runLoop], by simp [runLoop], by simp [runLoop],
      by simp [runLoop], by simp [runLoop], by simp [runLoop], by simp, by simp, by simp,
      fun _ => rfl⟩
  | cons s rest ih =>
    intro htame input vars cfs rfs w tr
    have hs : TameStage s := htame s (by simp)
    have hrest : ∀ u ∈ rest, TameStage u := fun u hu => htame u (by simp [hu])
    obtain ⟨created, hfiles, hcf, hrf, hev, htempd, hcond⟩ :=
      stage_resource_shape s hs
        (if isExec s = true then Value.intercept input vars else input) w
    simp only [runLoop]
    cases hso : (applyStage s (if isExec s = true then Value.intercept input vars else input) w).err with
    | some e =>
      dsimp only
      refine ⟨[], [], created, by simp, by simp, by simpa using hfiles,
        by simpa using hcf, by simpa using hrf, ?_, by simp, by simp, htempd,
        fun he => Option.noConfusion he⟩
      simpa using hev
    | none =>
      obtain ⟨hfile, hnonfile⟩ := hcond hso
      cases hout : (applyStage s (if isExec s = true then Value.intercept input vars else input) w).out with
      | file p =>
        dsimp only
        rcases hfile p hout with ⟨hpt, hpf⟩
        by_cases htmp : isTempName p = true
        · have hc : created = [p] := hpt htmp
          subst hc
          rw [if_pos htmp]
          obtain ⟨dc, dr, lk, h1, h2, h3, h4, h5, h6, h7, h8, h9, h10⟩ :=
            ih hrest (Value.file p) vars cfs (rfs ++ [p]) (applyStage s (if isExec s = true then Value.intercept input vars else input) w).world
              (tr ++ (applyStage s (if isExec s = true then Value.intercept input vars else input) w).events)
          refine ⟨dc, p :: dr, lk, h1, ?_, ?_, ?_, ?_, ?_, ?_, h8, h9, h10⟩
          · rw [h2]; simp
          · rw [h3, hfiles]; simp
          · rw [h4, hcf]
          · rw [h5, hrf]
          · rw [h6, hev]; simp
          · intro q hq
            rcases List.mem_cons.mp hq with h | h
            · subst h; exact htmp
            · exact h7 q h
        · have hfalse : isTempName p = false := by
            cases hb : isTempName p
            · rfl
            · exact absurd hb htmp
          have hc : created = [] := hpf hfalse
          subst hc
          rw [if_neg htmp]
          obtain ⟨dc, dr, lk, h1, h2, h3, h4, h5, h6, h7, h8, h9, h10⟩ :=
            ih hrest (Value.file p) vars (cfs ++ [p]) rfs (applyStage s (if isExec s = true then Value.intercept input vars else input) w).world
              (tr ++ (applyStage s (if isExec s = true then Value.intercept input vars else input) w).events)
          refine ⟨p :: dc, dr, lk, ?_, h2, ?_, ?_, ?_, ?_, h7, ?_, h9, h10⟩
          · rw [h1]; simp
          · rw [h3, hfiles]; simp
          · rw [h4, hcf]
          · rw [h5, hrf]
          · rw [h6, hev]; simp
          · intro q hq
            rcases List.mem_cons.mp hq with h | h
            · subst h; exact hfalse
            · exact h8 q h
      | svd n x =>
        dsimp only
        have hc : created = [] := hnonfile (fun q hq => by rw [hout] at hq; cases hq)
        subst hc
        by_cases hdup : (vars.find? (fun nv => nv.1 == n)).isSome = true
        · rw [if_pos hdup]
          exact ⟨[], [], [], by simp, by simp, by simpa using hfiles, by simpa using hcf,
            by simpa using hrf, by simpa using hev, by simp, by simp, by simp,
            fun he => Option.noConfusion he⟩
        · rw [if_neg hdup]
          obtain ⟨dc, dr, lk, h1, h2, h3, h4, h5, h6, h7, h8, h9, h10⟩ :=
            ih hrest (Value.svd n x) (vars ++ [(n, x)]) cfs rfs (applyStage s (if isExec s = true then Value.intercept input vars else input) w).world
              (tr ++ (applyStage s (if isExec s = true then Value.intercept input vars else input) w).events)
          refine ⟨dc, dr, lk, h1, h2, ?_, ?_, ?_, ?_, h7, h8, h9, h10⟩
          · rw [h3, hfiles]; simp
          · rw [h4, hcf]
          · rw [h5, hrf]
          · rw [h6, hev]; simp
      | empty =>
        dsimp only
        have hc : created = [] := hnonfile (fun q hq => by rw [hout] at hq; cases hq)
        subst hc
        obtain ⟨dc, dr, lk, h1, h2, h3, h4, h5, h6, h7, h8, h9, h10⟩ :=
          ih hrest Value.empty vars cfs rfs (applyStage s (if isExec s = true then Value.intercept input vars else input) w).world
            (tr ++ (applyStage s (if isExec s = true then Value.intercept input vars else input) w).events)
        refine ⟨dc, dr, lk, h1, h2, ?_, ?_, ?_, ?_, h7, h8, h9, h10⟩
        · rw [h3, hfiles]; simp
        · rw [h4, hcf]
        · rw [h5, hrf]
        · rw [h6, hev]; simp
      | text d =>
        dsimp only
        have hc : created = [] := hnonfile (fun q hq => by rw [hout] at hq; cases hq)
        subst hc
        obtain ⟨dc, dr, lk, h1, h2, h3, h4, h5, h6, h7, h8, h9, h10⟩ :=
          ih hrest (Value.text d) vars cfs rfs (applyStage s (if isExec s = true then Value.intercept input vars else input) w).world
            (tr ++ (applyStage s (if isExec s = true then Value.intercept input vars else input) w).events)
        refine ⟨dc, dr, lk, h1, h2, ?_, ?_, ?_, ?_, h7, h8, h9, h10⟩
        · rw [h3, hfiles]; simp
        · rw [h4, hcf]
        · rw [h5, hrf]
        · rw [h6, hev]; simp
      | bytes d =>
        dsimp only
        have hc : created = [] := hnonfile (fun q hq => by rw [hout] at hq; cases hq)
        subst hc
        obtain ⟨dc, dr, lk, h1, h2, h3, h4, h5, h6, h7, h8, h9, h10⟩ :=
          ih hrest (Value.bytes d) vars cfs rfs (applyStage s (if isExec s = true then Value.intercept input vars else input) w).world
            (tr ++ (applyStage s (if isExec s = true then Value.intercept input vars else input) w).events)
        refine ⟨dc, dr, lk, h1, h2, ?_, ?_, ?_, ?_, h7, h8, h9, h10⟩
        · rw [h3, hfiles]; simp
        · rw [h4, hcf]
        · rw [h5, hrf]
        · rw [h6, hev]; simp
      | splitRes a b =>
        dsimp only
        have hc : created = [] := hnonfile (fun q hq => by rw [hout] at hq; cases hq)
        subst hc
        obtain ⟨dc, dr, lk, h1, h2, h3, h4, h5, h6, h7, h8, h9, h10⟩ :=
          ih hrest (Value.splitRes a b) vars cfs rfs (applyStage s (if isExec s = true then Value.intercept input vars else input) w).world
            (tr ++ (applyStage s (if isExec s = true then Value.intercept input vars else input) w).events)
        refine ⟨dc, dr, lk, h1, h2, ?_, ?_, ?_, ?_, h7, h8, h9, h10⟩
        · rw [h3, hfiles]; simp
        · rw [h4, hcf]
        · rw [h5, hrf]
        · rw [h6, hev]; simp
      | intercept a b =>
        dsimp only
        have hc : created = [] := hnonfile (fun q hq => by rw [hout] at hq; cases hq)
        subst hc
        obtain ⟨dc, dr, lk, h1, h2, h3, h4, h5, h6, h7, h8, h9, h10⟩ :=
          ih hrest (Value.intercept a b) vars cfs rfs (applyStage s (if isExec s = true then Value.intercept input vars else input) w).world
            (tr ++ (applyStage s (if isExec s = true then Value.intercept input vars else input) w).events)
        refine ⟨dc, dr, lk, h1, h2, ?_, ?_, ?_, ?_, h7, h8, h9, h10⟩
        · rw [h3, hfiles]; simp
        · rw [h4, hcf]
        · rw [h5, hrf]
        · rw [h6, hev]; simp
      | obj g =>
        dsimp only
        have hc : created = [] := hnonfile (fun q hq => by rw [hout] at hq; cases hq)
        subst hc
        obtain ⟨dc, dr, lk, h1, h2, h3, h4, h5, h6, h7, h8, h9, h10⟩ :=
          ih hrest (Value.obj g) vars cfs rfs (applyStage s (if isExec s = true then Value.intercept input vars else input) w).world
            (tr ++ (applyStage s (if isExec s = true then Value.intercept input vars else input) w).events)
        refine ⟨dc, dr, lk, h1, h2, ?_, ?_, ?_, ?_, h7, h8, h9, h10⟩
        · rw [h3, hfiles]; simp
        · rw [h4, hcf]
        · rw [h5, hrf]
        · rw [h6, hev]; simp

/-- The temporary-file cleanup pass, when the files to remove follow the
base in the world's file list (possibly with trailing leaked files) and
none of them fails: it removes each registered file once, in registration
order, restores the file list to the base plus the leftovers, and keeps
the incoming error only when there was nothing to remove. -/
theorem removeLoop_all_ok :
    ∀ (dr : List String) (err : Option String) (base extra : List String) (w : World)
      (tr : List Event), w.files = base ++ dr ++ extra →
      (∀ p ∈ dr, p ∉ w.removeFails) → (∀ p ∈ dr, p ∉ base) →
      removeLoop err dr w tr =
        ((if dr.isEmpty then err else none), { w with files := base ++ extra },
         tr ++ dr.map Event.removed) := by
  intro dr
  induction dr with
  | nil =>
    intro err base extra w tr hfl _ _
    have hb : base ++ extra = w.files := by simpa using hfl.symm
    simp [removeLoop, hb]
  | cons p prest ih =>
    intro err base extra w tr hfl hrfs hnb
    have hpmem : p ∈ w.files := by rw [hfl]; simp
    have hprf : p ∉ w.removeFails := hrfs p (by simp)
    have herase : w.files.erase p = base ++ prest ++ extra := by
      rw [hfl, show base ++ (p :: prest) ++ extra = base ++ p :: (prest ++ extra) from
        by simp, List.erase_append_right _ (hnb p (by simp)), List.erase_cons_head]
      simp
    simp only [removeLoop, goRemove, if_pos hpmem, if_neg hprf]
    rw [ih none base extra { w with files := w.files.erase p } (tr ++ [Event.removed p])
      (by simpa using herase) (fun q hq => hrfs q (by simp [hq]))
      (fun q hq => hnb q (by simp [hq]))]
    simp

/-- Both cleanup passes when no close fails: every persistent file is
closed once in registration order, then the temporary pass runs, its
incoming error being the original error only when no file was closed. -/
theorem closeLoop_all_ok :
    ∀ (cfs : List String) (err : Option String) (rfs : List String) (w : World)
      (tr : List Event), (∀ p ∈ cfs, p ∉ w.closeFails) →
      closeLoop err cfs rfs w tr =
        removeLoop (if cfs.isEmpty then err else none) rfs w (tr ++ cfs.map Event.closed) := by
  intro cfs
  induction cfs with
  | nil => intro err rfs w tr _; simp [closeLoop]
  | cons p prest ih =>
    intro err rfs w tr hcfs
    have hpc : p ∉ w.closeFails := hcfs p (by simp)
    simp only [closeLoop, goClose, if_neg hpc]
    rw [ih none rfs w (tr ++ [Event.closed p]) (fun q hq => hcfs q (by simp [hq]))]
    simp

theorem filter_isRemoved_created (xs : List String) :
    (xs.map Event.createdTemp).filter isRemovedEv = [] := by
  induction xs with
  | nil => rfl
  | cons x xs ih => simp [isRemovedEv, ih]

theorem filter_isRemoved_closed (xs : List String) :
    (xs.map Event.closed).filter isRemovedEv = [] := by
  induction xs with
  | nil => rfl
  | cons x xs ih => simp [isRemovedEv, ih]

theorem filter_isRemoved_removed (xs : List String) :
    (xs.map Event.removed).filter isRemovedEv = xs.map Event.removed := by
  induction xs with
  | nil => rfl
  | cons x xs ih => simp [isRemovedEv, ih]

theorem filter_isCreated_created (xs : List String) :
    (xs.map Event.createdTemp).filter isCreatedEv = xs.map Event.createdTemp := by
  induction xs with
  | nil => rfl
  | cons x xs ih => simp [isCreatedEv, ih]

theorem filter_isCreated_closed (xs : List String) :
    (xs.map Event.closed).filter isCreatedEv = [] := by
  induction xs with
  | nil => rfl
  | cons x xs ih => simp [isCreatedEv, ih]

theorem filter_isCreated_removed (xs : List String) :
    (xs.map Event.removed).filter isCreatedEv = [] := by
  induction xs with
  | nil => rfl
  | cons x xs ih => simp [isCreatedEv, ih]

/-- C2 counterexample: a WriteTempFile stage whose post-creation write
fails (do.go line 198) returns a nil value and an error; the file that
ioutil.TempFile already created is therefore never registered, so a run
that created one temporary file performs zero deletions and leaves the
temp-named file on disk after Run returns, on its failure path. -/
theorem C2_residual_counterexample :
    (runGo [Stage.insert (Value.text "hi"), Stage.writeTempFile] wLeak).err =
      some "write godo-temporary-file: failed" ∧
    (runGo [Stage.insert (Value.text "hi"), Stage.writeTempFile] wLeak).trace =
      [Event.createdTemp "godo-temporary-file"] ∧
    ((runGo [Stage.insert (Value.text "hi"), Stage.writeTempFile] wLeak).trace.filter
        isRemovedEv).length = 0 ∧
    (runGo [Stage.insert (Value.text "hi"), Stage.writeTempFile] wLeak).world.files =
      ["godo-temporary-file"] ∧
    isTempName "godo-temporary-file" = true := by
  refine ⟨rfl, rfl, by decide, rfl, by decide⟩

/-- C2 amended: over a pipeline of tame stages in a world whose cleanup
operations succeed and whose pre-existing files are not temp-named, every
file value a stage returned was registered by name classification (every
entry of the temporary list is temp-named, every entry of the persistent
list is not), and every registered resource is released exactly once at
run end: the run's effects are exactly the creations of the registered
temporary files, then possibly the creation of a leaked file by a breaking
WriteTempFile stage, then one close per persistent file in registration
order, then one removal per temporary file in registration order,
regardless of whether a stage failed.  Removals fall short of creations
exactly by the leaked files, which are temp-named, survive in the final
world alongside the pre-existing files, and are absent whenever the stage
loop ended without an error - in particular a run whose stages all succeed
performs exactly as many deletions as creations and leaves zero residual
temporary files. -/
theorem C2_resource_lifecycle_amended (stages : List Stage) (w0 : World)
    (htame : ∀ s ∈ stages, TameStage s)
    (hwc : w0.closeFails = []) (hwr : w0.removeFails = [])
    (hwf : ∀ p ∈ w0.files, isTempName p = false) :
    ∃ leak : List String,
      (∀ p ∈ (runLoop stages .empty [] [] [] w0 []).rfs, isTempName p = true) ∧
      (∀ p ∈ (runLoop stages .empty [] [] [] w0 []).cfs, isTempName p = false) ∧
      (∀ p ∈ leak, isTempName p = true) ∧
      ((runLoop stages .empty [] [] [] w0 []).err = none → leak = []) ∧
      (runGo stages w0).trace =
        ((runLoop stages .empty [] [] [] w0 []).rfs.map Event.createdTemp ++ leak.map Event.createdTemp) ++
        ((runLoop stages .empty [] [] [] w0 []).cfs.map Event.closed ++ (runLoop stages .empty [] [] [] w0 []).rfs.map Event.removed) ∧
      (runGo stages w0).world.files = w0.files ++ leak ∧
      ((runGo stages w0).trace.filter isRemovedEv).length + leak.length =
        ((runGo stages w0).trace.filter isCreatedEv).length := by
  obtain ⟨dc, dr, leak, h1, h2, h3, h4, h5, h6, h7, h8, h9, h10⟩ :=
    runLoop_resources stages htame .empty [] [] [] w0 []
  have h1p : (runLoop stages .empty [] [] [] w0 []).cfs = dc := by simpa using h1
  have h2p : (runLoop stages .empty [] [] [] w0 []).rfs = dr := by simpa using h2
  have h6p : (runLoop stages .empty [] [] [] w0 []).tr =
      dr.map Event.createdTemp ++ leak.map Event.createdTemp := by simpa using h6
  have hcl : ∀ p ∈ (runLoop stages .empty [] [] [] w0 []).cfs, p ∉ (runLoop stages .empty [] [] [] w0 []).w.closeFails := by
    rw [h4, hwc]; simp
  have hbase : (runLoop stages .empty [] [] [] w0 []).w.files = w0.files ++ (runLoop stages .empty [] [] [] w0 []).rfs ++ leak := by
    rw [h2p]; exact h3
  have hremf : ∀ p ∈ (runLoop stages .empty [] [] [] w0 []).rfs, p ∉ (runLoop stages .empty [] [] [] w0 []).w.removeFails := by
    rw [h5, hwr]; simp
  have hdisj : ∀ p ∈ (runLoop stages .empty [] [] [] w0 []).rfs, p ∉ w0.files := by
    intro p hp hmem
    have ht : isTempName p = true := by rw [h2p] at hp; exact h7 p hp
    have hf : isTempName p = false := hwf p hmem
    rw [ht] at hf
    exact Bool.noConfusion hf
  have hrun : runGo stages w0 =
      ⟨(runLoop stages .empty [] [] [] w0 []).val,
       (closeLoop (runLoop stages .empty [] [] [] w0 []).err (runLoop stages .empty [] [] [] w0 []).cfs (runLoop stages .empty [] [] [] w0 []).rfs
         (runLoop stages .empty [] [] [] w0 []).w (runLoop stages .empty [] [] [] w0 []).tr).1,
       (closeLoop (runLoop stages .empty [] [] [] w0 []).err (runLoop stages .empty [] [] [] w0 []).cfs (runLoop stages .empty [] [] [] w0 []).rfs
         (runLoop stages .empty [] [] [] w0 []).w (runLoop stages .empty [] [] [] w0 []).tr).2.1,
       (closeLoop (runLoop stages .empty [] [] [] w0 []).err (runLoop stages .empty [] [] [] w0 []).cfs (runLoop stages .empty [] [] [] w0 []).rfs
         (runLoop stages .empty [] [] [] w0 []).w (runLoop stages .empty [] [] [] w0 []).tr).2.2,
       (runLoop stages .empty [] [] [] w0 []).vars, (runLoop stages .empty [] [] [] w0 []).cfs, (runLoop stages .empty [] [] [] w0 []).rfs⟩ := rfl
  have hclean := closeLoop_all_ok (runLoop stages .empty [] [] [] w0 []).cfs (runLoop stages .empty [] [] [] w0 []).err
    (runLoop stages .empty [] [] [] w0 []).rfs (runLoop stages .empty [] [] [] w0 []).w (runLoop stages .empty [] [] [] w0 []).tr hcl
  have hremove := removeLoop_all_ok (runLoop stages .empty [] [] [] w0 []).rfs
    (if (runLoop stages .empty [] [] [] w0 []).cfs.isEmpty then (runLoop stages .empty [] [] [] w0 []).err else none)
    w0.files leak (runLoop stages .empty [] [] [] w0 []).w
    ((runLoop stages .empty [] [] [] w0 []).tr ++ (runLoop stages .empty [] [] [] w0 []).cfs.map Event.closed)
    hbase hremf hdisj
  have htr : (runGo stages w0).trace =
      ((runLoop stages .empty [] [] [] w0 []).rfs.map Event.createdTemp ++ leak.map Event.createdTemp) ++
      ((runLoop stages .empty [] [] [] w0 []).cfs.map Event.closed ++ (runLoop stages .empty [] [] [] w0 []).rfs.map Event.removed) := by
    rw [hrun]
    dsimp only
    rw [hclean, hremove]
    dsimp only
    rw [h6p, h1p, h2p]
    simp [List.append_assoc]
  refine ⟨leak, ?_, ?_, h9, ?_, htr, ?_, ?_⟩
  · rw [h2p]; exact h7
  · rw [h1p]; exact h8
  · exact h10
  · rw [hrun]
    dsimp only
    rw [hclean, hremove]
  · rw [htr, h1p, h2p]
    simp [List.filter_append, filter_isRemoved_created, filter_isRemoved_closed,
      filter_isRemoved_removed, filter_isCreated_created, filter_isCreated_closed,
      filter_isCreated_removed]

/-- C2 witness: a pipeline creating two temporary files with every stage
succeeding removes both (as many deletions as creations) and leaves only
the pre-existing file behind. -/
theorem C2_resource_lifecycle_witness :
    (runGo stagesC2ok w0keep).world.files = ["keep.txt"] ∧
    ((runGo stagesC2ok w0keep).trace.filter isRemovedEv).length =
      ((runGo stagesC2ok w0keep).trace.filter isCreatedEv).length := by
  have htame : ∀ s ∈ stagesC2ok, TameStage s := by
    intro s hs
    simp only [stagesC2ok, List.mem_cons, List.not_mem_nil, or_false] at hs
    rcases hs with rfl | rfl | rfl | rfl
    · exact fun p h => Value.noConfusion h
    · trivial
    · exact fun p h => Value.noConfusion h
    · trivial
  obtain ⟨leak, h1, h2, h3, h4, h5, h6, h7⟩ :=
    C2_resource_lifecycle_amended stagesC2ok w0keep htame rfl rfl (by decide)
  have hnil : leak = [] := h4 (by rfl)
  subst hnil
  exact ⟨by simpa using h6, by simpa using h7⟩

/-- C1: what Run actually returns after cleanup.  The cleanup loops assign
every Close and Remove result to the named return err, so a successful
cleanup operation overwrites a pending stage error with nil: a pipeline
that creates a temporary file and then fails with boom returns a nil
error, while the same pipeline without the temporary file returns boom;
a failing Close does supersede the stage error as the specification
says. -/
theorem C1_cleanup_error_overwrite :
    (runGo [Stage.insert (Value.text "x"), Stage.writeTempFile, failStage "boom"] w0x).err =
      none ∧
    (runGo [Stage.insert (Value.text "x"), failStage "boom"] w0x).err = some "boom" ∧
    (runGo [Stage.fn (fun _ w => ⟨Value.file "/out.txt", none, w, []⟩), failStage "boom"]
        (⟨["/out.txt"], 0, ["/out.txt"], [], [], fun _ => quietOutcome⟩ : World)).err =
      some "close /out.txt: failed" :=
  ⟨rfl, rfl, rfl⟩

end GoDo
